import Mathlib

/-!
Cache-Simulation: a shallow embedding of `cachesim.c`.

`cachesim.c` is one `main` function: it reads the geometry from the command line, builds an
array of sets (each a singly linked list of `set_node`), and replays a trace of loads and stores
against it, talking to a backing memory through `read_from_memory` / `write_to_memory`.

The embedding follows `main` block by block:

* `nsets`, `ibits`, `bbits` are the geometry computed at start-up (lines 45-56);
* `blockoff`, `index`, `ctag` are the address decomposition (lines 101-104);
* `scan` is the way scan with the running maximum of `lru` (lines 114-135);
* `touchSet` is the body of the trace loop on the selected set (lines 137-285) and
  `accessSet` adds the age update (lines 287-299);
* `access` selects `cache[index]` and stores the set back; `main_loop` replays a trace;
* `startup` is the start-up loop (lines 65-84) and `main` the whole program with its exit
  status and the lines it prints, or `none` where the run leaves the behaviour C defines
  (`trace_loop`, `recordOk`).

C `int`s are unbounded integers here, with one exception: the product `cacheSize * 1024` of
line 45 is brought into 32 bits (`wrap32`) and divided with C's truncating division. The address
arithmetic cannot overflow, and an age only grows by one per trace record, so it stays in range
for any trace shorter than 2^31 records. The three sizes of the command line are naturals.
Pointers into a set are positions in the list of its ways. Bytes are naturals. Backing memory
starts as `init_memory`, all zero; `Reachable` admits any initial content and
`ReachableFromZero` only that one.
-/

namespace CacheSim

/-! ## Data model -/

/-- The command line: `argv[2]`, `argv[3]`, `argv[4]`, each read with `%d`. -/
structure Config where
  cacheSize : Nat
  associativity : Nat
  blockSize : Nat
deriving DecidableEq

/-- One way of a set: the fields of `struct set_node`. The link `more_recent` is the list
structure of the set itself. -/
structure set_node where
  data : List Nat
  tag : Int
  dirty : Int
  valid : Int
  lru : Int
deriving DecidableEq

/-- The array `cache[nsets]` of linked lists of ways. -/
abbrev Cache := List (List set_node)

/-- The backing memory behind `memory.h`: one byte per address. -/
abbrev Mem := Int → Nat

/-- One record of the trace file: `load <addr> <size>` or `store <addr> <size> <payload>`.
The payload is the list of bytes parsed into `val`. -/
inductive Op where
  | load (currAddress : Int) (accessSize : Nat)
  | store (currAddress : Int) (accessSize : Nat) (val : List Nat)
deriving DecidableEq

/-- The address of a trace record. -/
def Op.currAddress : Op → Int
  | .load a _ => a
  | .store a _ _ => a

/-- The access size of a trace record. -/
def Op.accessSize : Op → Nat
  | .load _ n => n
  | .store _ n _ => n

/-! ## Geometry (lines 45-56) -/

/-- The value a 32-bit `int` computation yields: the exact result brought into
`[-2^31, 2^31)` modulo `2^32`. The C standard leaves signed overflow undefined; this is what
two's-complement hardware produces. -/
def wrap32 (x : Int) : Int := (x + 2 ^ 31) % 2 ^ 32 - 2 ^ 31

/-- The number of sets: `(cacheSize * 1024) / blockSize / associativity` in `int` arithmetic
(the product wraps when it does not fit, the divisions truncate towards zero), raised to 1 when
smaller than 1. -/
def nsets (g : Config) : Nat :=
  let total : Int := wrap32 ((g.cacheSize : Int) * 1024)
  let n : Int := (total.tdiv (g.blockSize : Int)).tdiv (g.associativity : Int)
  if n < 1 then 1 else n.toNat

/-- The loop `while (m >>= 1) q++;` with the counter `q` passed along. The first argument bounds
the number of iterations; `m` itself is always enough (`shiftLoop_eq_log2`). -/
def shiftLoop : Nat → Nat → Nat → Nat
  | 0, _, q => q
  | fuel + 1, m, q => if m >>> 1 = 0 then q else shiftLoop fuel (m >>> 1) (q + 1)

/-- The number of times `m` can be halved before it reaches zero, as both shift loops count. -/
def shiftCount (m : Nat) : Nat := shiftLoop m m 0

/-- The number of index bits, `ibits`. -/
def ibits (g : Config) : Nat := shiftCount (nsets g)

/-- The number of block-offset bits, `bbits`. -/
def bbits (g : Config) : Nat := shiftCount g.blockSize

/-! ## Address decomposition (lines 101-104) -/

/-- The mask `(1 << k) - 1`. -/
def lowMask (k : Nat) : Int := Int.ofNat ((1 <<< k) - 1)

/-- The block offset: `(currAddress >> 0) & ((1 << bbits) - 1)`. -/
def blockoff (bb : Nat) (currAddress : Int) : Int :=
  Int.land (currAddress >>> (0 : Nat)) (lowMask bb)

/-- The set index: `(currAddress >> bbits) & ((1 << ibits) - 1)`. -/
def index (bb ib : Nat) (currAddress : Int) : Int :=
  Int.land (currAddress >>> bb) (lowMask ib)

/-- The tag: `currAddress >> (bbits + ibits)`. -/
def ctag (bb ib : Nat) (currAddress : Int) : Int :=
  currAddress >>> (bb + ib)

/-! ## Backing memory -/

/-- Modelled from the spec: `read_from_memory(buf, addr, len)` of `memory.h`, which is not among
the sources. It returns the `len` bytes starting at `addr`. -/
def read_from_memory (mem : Mem) (addr : Int) (len : Nat) : List Nat :=
  (List.range len).map (fun (i : Nat) => mem (addr + (i : Int)))

/-- Modelled from the spec: `write_to_memory(buf, addr, len)` of `memory.h`, which is not among
the sources. It writes exactly `len` bytes of `buf` starting at `addr`, visible to later reads. -/
def write_to_memory (mem : Mem) (buf : List Nat) (addr : Int) (len : Nat) : Mem :=
  fun a => if addr ≤ a ∧ a < addr + (len : Int) then buf.getD (a - addr).toNat 0 else mem a

/-! ## Start-up (lines 65-84) -/

/-- A way as the start-up loop leaves it: `valid`, `dirty` and `lru` are zeroed, the buffer has
`blockSize` bytes; the tag and the bytes are whatever `malloc` returned. -/
def IsFreshWay (g : Config) (w : set_node) : Prop :=
  w.valid = 0 ∧ w.dirty = 0 ∧ w.lru = 0 ∧ w.data.length = g.blockSize

/-- A cache as the start-up loop leaves it: `nsets` sets, each a head followed by
`associativity - 1` further ways, all fresh. -/
def IsInitial (g : Config) (c : Cache) : Prop :=
  c.length = nsets g ∧
    ∀ s ∈ c, s.length = 1 + (g.associativity - 1) ∧ ∀ w ∈ s, IsFreshWay g w

/-- The initial cache in which every uninitialised tag and byte happens to be zero. -/
def zeroCache (g : Config) : Cache :=
  List.replicate (nsets g)
    (List.replicate (1 + (g.associativity - 1))
      { data := List.replicate g.blockSize 0, tag := 0, dirty := 0, valid := 0, lru := 0 })

/-! ## The way scan (lines 114-135) -/

/-- The `while (temp != NULL)` loop. `counter` is the position of `temp`, `max` the running
maximum and `lru_set` the position of the way that attains it. The first component of the result
is the position of `temp` when the loop is left by `break`, and `none` when `temp` ran off the
end of the list. -/
def scanLoop (ctag : Int) : List set_node → Nat → Int → Nat → Option Nat × Nat
  | [], _, _, lru_set => (none, lru_set)
  | temp :: rest, counter, max, lru_set =>
      if temp.tag = ctag ∧ temp.valid = 1 then (some counter, lru_set)
      else if temp.lru > max then scanLoop ctag rest (counter + 1) temp.lru counter
      else scanLoop ctag rest (counter + 1) max lru_set

/-- The scan of one set, started with `max = head->lru` and `lru_set = head`. -/
def scan (ctag : Int) (ways : List set_node) : Option Nat × Nat :=
  match ways with
  | [] => (none, 0)
  | head :: _ => scanLoop ctag ways 0 head.lru 0

/-! ## Buffers -/

/-- The loop `for (i = 0; i < n; i++) dst[off + i] = src[i];`. A write past the end of `dst`
and a read past the end of `src` are undefined in C; here the write is dropped and the read
gives 0, and every theorem about bytes assumes the access stays inside the block. -/
def copyLoop (dst : List Nat) (off : Nat) (src : List Nat) : Nat → List Nat
  | 0 => dst
  | n + 1 => (copyLoop dst off src n).set (off + n) (src.getD n 0)

/-- The bytes `buf[off + i]`, `i < n`, that a load prints. -/
def readBytes (buf : List Nat) (off n : Nat) : List Nat :=
  (List.range n).map (fun (i : Nat) => buf.getD (off + i) 0)

/-- Assignment through a pointer to the way at position `p` of a set. -/
def modifyAt (f : set_node → set_node) : List set_node → Nat → List set_node
  | [], _ => []
  | w :: ws, 0 => f w :: ws
  | w :: ws, p + 1 => w :: modifyAt f ws p

/-- The loop of lines 289-298: every way other than `actually_used` gets `lru + 1`. `i` is the
position of `header`. -/
def ageLoop (actually_used : Nat) : List set_node → Nat → List set_node
  | [], _ => []
  | header :: rest, i =>
      (if i = actually_used then header else { header with lru := header.lru + 1 }) ::
        ageLoop actually_used rest (i + 1)

/-- The way a null or dangling pointer would stand for; never read on a non-empty set. -/
def noWay : set_node := { data := [], tag := 0, dirty := 0, valid := 0, lru := 0 }

/-! ## One trace record (lines 90-299) -/

/-- What one iteration of the trace loop leaves behind and prints. -/
structure SetResult where
  /-- The ways of the selected set after the iteration. -/
  ways : List set_node
  /-- The backing memory after the iteration. -/
  mem : Mem
  /-- Whether the line printed says `hit`. -/
  hit : Bool
  /-- The bytes printed by a load (nothing for a store). -/
  out : List Nat
  /-- The position of `actually_used`. -/
  used : Nat
  /-- The call of `write_to_memory` made, if any: target address and buffer. -/
  wb : Option (Int × List Nat)

/-- The body of the trace loop on the set `ways = cache[index]`, before the age update.
`d_buff` is the block as `read_from_memory` returns it; the C array has room for 64 bytes, so
this follows the source for block sizes up to 64. -/
def touchSet (g : Config) (mem : Mem) (ways : List set_node) (op : Op) : SetResult :=
  let currAddress := op.currAddress
  let off := blockoff (bbits g) currAddress
  let tg := ctag (bbits g) (ibits g) currAddress
  match (scan tg ways).1 with
  | some target_index =>
      match op with
      | .load _ accessSize =>
          let target_block := (ways.getD target_index noWay).data
          { ways := modifyAt (fun w => { w with lru := 0, tag := tg }) ways target_index
            mem := mem
            hit := true
            out := readBytes target_block off.toNat accessSize
            used := target_index
            wb := none }
      | .store _ accessSize val =>
          { ways := modifyAt (fun w =>
              { w with data := copyLoop w.data off.toNat val accessSize
                       dirty := 1, lru := 0, valid := 1, tag := tg }) ways target_index
            mem := mem
            hit := true
            out := []
            used := target_index
            wb := none }
  | none =>
      let lru_set := (scan tg ways).2
      let victim := ways.getD lru_set noWay
      let startAddress := currAddress - off
      let d_buff := read_from_memory mem startAddress g.blockSize
      let aim_block := victim.data
      let wb := if victim.dirty = 1 then some (startAddress, aim_block) else none
      let mem1 := if victim.dirty = 1 then write_to_memory mem aim_block startAddress g.blockSize
        else mem
      match op with
      | .load _ accessSize =>
          let filled := copyLoop aim_block 0 d_buff g.blockSize
          { ways := modifyAt (fun w =>
              { w with data := filled, valid := 1, dirty := 0, tag := tg, lru := 0 }) ways lru_set
            mem := mem1
            hit := false
            out := if victim.valid = 0 then readBytes (List.replicate accessSize 0) 0 accessSize
              else readBytes filled off.toNat accessSize
            used := lru_set
            wb := wb }
      | .store _ accessSize val =>
          { ways := modifyAt (fun w =>
              { w with data := copyLoop w.data off.toNat val accessSize
                       valid := 1, dirty := 0, tag := tg, lru := 0 }) ways lru_set
            mem := mem1
            hit := false
            out := []
            used := lru_set
            wb := wb }

/-- The whole body of the trace loop on the selected set: `touchSet` followed by the age update
of lines 287-299, which runs only when `associativity > 1`. -/
def accessSet (g : Config) (mem : Mem) (ways : List set_node) (op : Op) : SetResult :=
  let r := touchSet g mem ways op
  { r with ways := if g.associativity > 1 then ageLoop r.used r.ways 0 else r.ways }

/-- The position in `cache` of the set an address selects. -/
def setIndex (g : Config) (currAddress : Int) : Nat :=
  (index (bbits g) (ibits g) currAddress).toNat

/-- What one trace record does to the whole simulator. -/
structure Result where
  /-- The cache after the record. -/
  cache : Cache
  /-- The result on the selected set. -/
  res : SetResult

/-- One iteration of the trace loop: select `cache[index]`, run the body on it. -/
def access (g : Config) (c : Cache) (mem : Mem) (op : Op) : Result :=
  let i := setIndex g op.currAddress
  let r := accessSet g mem (c.getD i []) op
  { cache := c.set i r.ways, res := r }

/-- The trace loop: the records of the trace in order, from cache `c` and memory `mem`. -/
def main_loop (g : Config) : Cache → Mem → List Op → Cache × Mem
  | c, mem, [] => (c, mem)
  | c, mem, op :: rest =>
      let r := access g c mem op
      main_loop g r.cache r.res.mem rest

/-- The states the simulator can be in: a start-up state with any memory content, or the state
after one more trace record. -/
inductive Reachable (g : Config) : Cache → Mem → Prop
  | init (c : Cache) (mem : Mem) : IsInitial g c → Reachable g c mem
  | step (c : Cache) (mem : Mem) (op : Op) :
      Reachable g c mem → Reachable g (access g c mem op).cache (access g c mem op).res.mem

/-! ## The whole program -/

/-- The lines printed for a trace, one per record: whether the line says `hit`, and the bytes
a load prints (none for a store). -/
def printed (g : Config) : Cache → Mem → List Op → List (Bool × List Nat)
  | _, _, [] => []
  | c, mem, op :: rest =>
      let r := access g c mem op
      (r.res.hit, r.res.out) :: printed g r.cache r.res.mem rest

/-- What `malloc` hands out: the tag and the bytes found in the way at position `j` of set `i`,
which the start-up loop does not assign. -/
structure Heap where
  tag : Nat → Nat → Int
  byte : Nat → Nat → Nat → Nat

/-- The start-up loop of lines 65-84: `nsets` sets, each a head and `associativity - 1` further
ways, with `valid`, `dirty` and `lru` zeroed and a buffer of `blockSize` bytes. -/
def startup (g : Config) (heap : Heap) : Cache :=
  (List.range (nsets g)).map (fun (i : Nat) =>
    (List.range (1 + (g.associativity - 1))).map (fun (j : Nat) =>
      { data := (List.range g.blockSize).map (heap.byte i j)
        tag := heap.tag i j, dirty := 0, valid := 0, lru := 0 }))

/-- The exit status `EXIT_SUCCESS` of `stdlib.h`. -/
def EXIT_SUCCESS : Int := 0

/-- The exit status `EXIT_FAILURE` of `stdlib.h`. -/
def EXIT_FAILURE : Int := 1

/-- The trace records on which the body of the trace loop stays inside its arrays. The address
is a value of the `int` it is read into and the size is at least 1 (`val_load[accessSize]`,
`p_block[accessSize]`); the `accessSize` bytes from `blockoff` on lie inside a buffer of
`blockSize` bytes (`target_block[blockoff + i]`, `aim_block[blockoff + i]`,
`d_buff[blockoff + j]`); for a store, the payload holds `accessSize` bytes (`val[accessSize + 1]`,
`val[i]`) and its text with the closing NUL fits `data_buffer[64]`. -/
def recordOk (g : Config) : Op → Prop
  | .load a n =>
      -2 ^ 31 ≤ a ∧ a < 2 ^ 31 ∧ 1 ≤ n ∧ (blockoff (bbits g) a).toNat + n ≤ g.blockSize
  | .store a n val =>
      -2 ^ 31 ≤ a ∧ a < 2 ^ 31 ∧ 1 ≤ n ∧ (blockoff (bbits g) a).toNat + n ≤ g.blockSize ∧
      val.length = n ∧ 2 * n + 1 ≤ 64 ∧ ∀ b ∈ val, b < 256

instance (g : Config) (op : Op) : Decidable (recordOk g op) := by
  cases op <;> (unfold recordOk; infer_instance)

/-- The trace loop of lines 90-300 with the places where it leaves the behaviour C defines:
`none` when a record is not `recordOk`, and `none` on a miss when `blockSize` exceeds 64, where
`read_from_memory(d_buff, startAddress, blockSize)` writes past `unsigned char d_buff[64]`
(line 149). Otherwise the lines printed, one per record. -/
def trace_loop (g : Config) : Cache → Mem → List Op → Option (List (Bool × List Nat))
  | _, _, [] => some []
  | c, mem, op :: rest =>
      if recordOk g op then
        let r := access g c mem op
        if r.res.hit = false ∧ 64 < g.blockSize then none
        else (trace_loop g r.cache r.res.mem rest).map
          (fun lines => (r.res.hit, r.res.out) :: lines)
      else none

/-- The function `main`. The trace is `none` when `fopen` returns `NULL` (line 37, not tested);
`stack` is the number of set pointers the stack has room for in `set_node* cache[nsets]`
(line 62); `heap` is what `malloc` hands out, and `malloc` is taken to succeed; `mem` is the
backing memory after `init_memory()`.

The result is `some` of the exit status and the lines printed for the trace, or `none` when the
run leaves the behaviour C defines. `main` returns `EXIT_FAILURE` when `argc` is not 5, before
anything else (lines 17-20). Otherwise the run is undefined when the trace file did not open
(`fscanf` on `NULL`), when `cacheSize * 1024` overflows `int` or `blockSize` or `associativity`
is 0 (line 45), when `cache[nsets]` does not fit the stack, when a way's `lru` could overflow
(more than one way and 2^31 records or more), and wherever `trace_loop` is; in all other runs
`main` replays the whole trace and returns `EXIT_SUCCESS` (line 322). -/
def main (argc : Nat) (g : Config) (stack : Nat) (heap : Heap) (mem : Mem)
    (trace : Option (List Op)) : Option (Int × List (Bool × List Nat)) :=
  if argc ≠ 5 then some (EXIT_FAILURE, [])
  else
    match trace with
    | none => none
    | some ops =>
        if 2 ^ 31 ≤ g.cacheSize * 1024 ∨ g.blockSize = 0 ∨ g.associativity = 0 then none
        else if stack < nsets g then none
        else if 1 < g.associativity ∧ 2 ^ 31 ≤ ops.length then none
        else (trace_loop g (startup g heap) mem ops).map (fun lines => (EXIT_SUCCESS, lines))

/-! ## Specification vocabulary -/

/-- The scan's test on one way: `temp->tag == ctag && temp->valid == 1`. -/
def Matches (t : Int) (w : set_node) : Prop := w.tag = t ∧ w.valid = 1

instance (t : Int) (w : set_node) : Decidable (Matches t w) := by
  unfold Matches; infer_instance

/-- What the scan of a set must return: on `some p` the first matching way; on `none` no way
matches and the second component is the first way of maximal `lru`. -/
def ScanSpec (t : Int) (ways : List set_node) (r : Option Nat × Nat) : Prop :=
  match r.1 with
  | some p => p < ways.length ∧ Matches t (ways.getD p noWay) ∧
      ∀ q, q < p → ¬ Matches t (ways.getD q noWay)
  | none => (∀ q, q < ways.length → ¬ Matches t (ways.getD q noWay)) ∧
      r.2 < ways.length ∧
      (∀ q, q < ways.length → (ways.getD q noWay).lru ≤ (ways.getD r.2 noWay).lru) ∧
      ∀ q, q < r.2 → (ways.getD q noWay).lru < (ways.getD r.2 noWay).lru

/-- The tag of the address of a trace record. -/
def tagOf (g : Config) (op : Op) : Int := ctag (bbits g) (ibits g) op.currAddress

/-- The block offset of the address of a trace record, as a position in a buffer. -/
def offOf (g : Config) (op : Op) : Nat := (blockoff (bbits g) op.currAddress).toNat

/-- The aligned base address `currAddress - blockoff` of a trace record. -/
def baseOf (g : Config) (op : Op) : Int := op.currAddress - blockoff (bbits g) op.currAddress

/-- The shape of a set that the start-up loop builds and no access changes: a head plus
`associativity - 1` ways, each with a buffer of `blockSize` bytes. -/
def SetShape (g : Config) (s : List set_node) : Prop :=
  s.length = 1 + (g.associativity - 1) ∧
    ∀ q, q < s.length → (s.getD q noWay).data.length = g.blockSize

/-- A cache state of the right shape for the geometry: `nsets` sets of the shape above. -/
def WellFormed (g : Config) (c : Cache) : Prop :=
  c.length = nsets g ∧ ∀ i, i < c.length → SetShape g (c.getD i [])

/-- No way of the set has a negative age. -/
def AgesNonneg (s : List set_node) : Prop :=
  ∀ q, q < s.length → 0 ≤ (s.getD q noWay).lru

/-- No two distinct ways of the set are both valid with the same tag. -/
def NoDupTags (s : List set_node) : Prop :=
  ∀ p q, p < s.length → q < s.length →
    (s.getD p noWay).valid = 1 → (s.getD q noWay).valid = 1 →
    (s.getD p noWay).tag = (s.getD q noWay).tag → p = q

/-- The flags of every way of the set are 0 or 1, and a dirty way is valid. -/
def FlagsOk (s : List set_node) : Prop :=
  ∀ q, q < s.length →
    ((s.getD q noWay).valid = 0 ∨ (s.getD q noWay).valid = 1) ∧
    ((s.getD q noWay).dirty = 0 ∨ ((s.getD q noWay).dirty = 1 ∧ (s.getD q noWay).valid = 1))

/-- What holds of every reachable cache: the shape fits the geometry, no age is negative and no
set maps a tag twice. -/
def CacheInv (g : Config) (c : Cache) : Prop :=
  WellFormed g c ∧ ∀ i, i < c.length → AgesNonneg (c.getD i []) ∧ NoDupTags (c.getD i [])

/-- The ways of a set hold the tags `ts` (most recently touched first) in recency order: the
tag at place `j` of `ts` sits valid in some way of age exactly `j`, and every way that is not
one of these has age at least `ts.length`. -/
def Recent (ts : List Int) (ways : List set_node) : Prop :=
  ∃ pos : Nat → Nat,
    (∀ j, j < ts.length → pos j < ways.length ∧
      Matches (ts.getD j 0) (ways.getD (pos j) noWay) ∧
      (ways.getD (pos j) noWay).lru = (j : Int)) ∧
    (∀ q, q < ways.length → (∀ j, j < ts.length → pos j ≠ q) →
      (ts.length : Int) ≤ (ways.getD q noWay).lru)

/-- The tag is held by a valid way of the set. -/
def Resident (t : Int) (ways : List set_node) : Prop :=
  ∃ q, q < ways.length ∧ Matches t (ways.getD q noWay)

/-- The write-back address the specification asks for, following its words:
`(old_tag << (offset_bits + index_bits)) | (index << offset_bits)`; the shifts are written as
multiplications by powers of two. -/
def specWritebackAddress (g : Config) (old_tag : Int) (idx : Nat) : Int :=
  Int.lor (old_tag * 2 ^ (bbits g + ibits g)) ((idx : Int) * 2 ^ bbits g)

/-! ## Concrete scenarios -/

/-- The command line `1 1 64`: 1 KB, direct mapped, 64-byte blocks, hence 16 sets. -/
def cfgDirect : Config := { cacheSize := 1, associativity := 1, blockSize := 64 }

/-- The command line `1 2 64`: 1 KB, two ways per set, 64-byte blocks, hence 8 sets. -/
def cfgTwoWay : Config := { cacheSize := 1, associativity := 2, blockSize := 64 }

/-- A backing memory that holds zero everywhere. -/
def zeroMem : Mem := fun _ => 0

/-- The direct-mapped cache after `store 0x0 1 aa` (a miss) and `store 0x0 1 bb` (a hit): the
only way of set 0 holds tag 0 and is dirty. -/
def dirtyState : Cache × Mem :=
  main_loop cfgDirect (zeroCache cfgDirect) zeroMem [.store 0 1 [0xaa], .store 0 1 [0xbb]]

/-- The direct-mapped cache after `store 0x0 1 aa`: the only way of set 0 holds tag 0 and its
buffer starts with `aa`. -/
def storedState : Cache × Mem :=
  main_loop cfgDirect (zeroCache cfgDirect) zeroMem [.store 0 1 [0xaa]]

/-- A backing memory that holds `7f` at address 0x400 and zero elsewhere. -/
def markedMem : Mem := fun a => if a = 0x400 then 0x7f else 0

/-- The two-way cache after `load 0x0 1`: way 0 of set 0 holds tag 0 with age 0, way 1 is
still invalid with age 1. -/
def twoWayAfterA : Cache × Mem :=
  main_loop cfgTwoWay (zeroCache cfgTwoWay) zeroMem [.load 0 1]

/-- The two-way cache after `load 0x0 1` and `store 0x200 1 bb`: way 0 of set 0 holds tag 0,
way 1 holds tag 1. -/
def twoWayAfterAB : Cache × Mem :=
  main_loop cfgTwoWay (zeroCache cfgTwoWay) zeroMem [.load 0 1, .store 0x200 1 [0xbb]]

/-- The direct-mapped cache over `markedMem` after `load 0x0 1`: the way of set 0 is valid. -/
def markedAfterLoad : Cache × Mem :=
  main_loop cfgDirect (zeroCache cfgDirect) markedMem [.load 0 1]

/-- The command line `1 32 64`: 1 KB asked for, but one set of 32 ways of 64 bytes is already
2 KB; the set count is raised from 0 to 1. -/
def cfgWide : Config := { cacheSize := 1, associativity := 32, blockSize := 64 }

/-- The command line `1 1 48`: a block size that is not a power of two; 21 sets. -/
def cfgOdd : Config := { cacheSize := 1, associativity := 1, blockSize := 48 }

/-- The result of `load 0x400 1` on the initial direct-mapped cache over `markedMem`: a miss
that fills the way of set 0. -/
def markedFilled : Result := access cfgDirect (zeroCache cfgDirect) markedMem (.load 0x400 1)

/-- The result of a second `load 0x400 1` right after `markedFilled`. -/
def markedReload : Result :=
  access cfgDirect markedFilled.cache markedFilled.res.mem (.load 0x400 1)

/-- A heap that holds zero everywhere. -/
def zeroHeap : Heap := { tag := fun _ _ => 0, byte := fun _ _ _ => 0 }

/-- The ages of a set split at some `N ≥ 0`: every invalid way has age exactly `N` and every
valid way has an age below `N`. -/
def AgeSplit (s : List set_node) : Prop :=
  ∃ N : Int, 0 ≤ N ∧
    (∀ q, q < s.length → (s.getD q noWay).valid = 0 → (s.getD q noWay).lru = N) ∧
    (∀ q, q < s.length → (s.getD q noWay).valid = 1 → (s.getD q noWay).lru < N)

/-- Modelled from the spec: the memory `init_memory()` of `memory.h` sets up, which is not
among the sources. Bytes never written read as a well-defined default; it is taken to be 0. -/
def init_memory : Mem := fun _ => 0

/-- The states a run of the program can be in: a start-up cache over the memory that
`init_memory` sets up, or the state after one more trace record. -/
inductive ReachableFromZero (g : Config) : Cache → Mem → Prop
  | init (c : Cache) : IsInitial g c → ReachableFromZero g c init_memory
  | step (c : Cache) (mem : Mem) (op : Op) :
      ReachableFromZero g c mem →
      ReachableFromZero g (access g c mem op).cache (access g c mem op).res.mem

/-- Backing memory is still zero at every address whose set has an invalid way. -/
def ZeroBehindInvalid (g : Config) (c : Cache) (mem : Mem) : Prop :=
  ∀ x : Int,
    (∃ q, q < (c.getD (setIndex g x) []).length ∧
      ((c.getD (setIndex g x) []).getD q noWay).valid = 0) → mem x = 0

/-- The cache and memory on `1 1 48`, from zero memory, after `store 0x0 1 aa`,
`store 0x1f 8 0102030405060708` (a hit that leaves bytes 31..38 of the way of set 0 dirty) and
`load 0x200 1` (a miss in set 0 that writes the 48 bytes of that way back at 0x200). Address
0x220 belongs to set 1, whose way is still invalid, and now holds `02`. -/
def oddLeak : Cache × Mem :=
  main_loop cfgOdd (zeroCache cfgOdd) init_memory
    [.store 0x0 1 [0xaa], .store 0x1f 8 [1, 2, 3, 4, 5, 6, 7, 8], .load 0x200 1]

/-- The direct-mapped cache, from zero memory, after two stores to 0x0, `load 0x400 1` (which
writes the dirty way back, at 0x400) and `load 0x800 1`: set 0 holds tag 2 and memory holds `bb`
at 0x400. -/
def writtenBack : Cache × Mem :=
  main_loop cfgDirect (zeroCache cfgDirect) init_memory
    [.store 0 1 [0xaa], .store 0 1 [0xbb], .load 0x400 1, .load 0x800 1]

/-! ## Geometry lemmas -/

theorem shiftLoop_pow_le (fuel : Nat) : ∀ m q, 1 ≤ m → 2 ^ (shiftLoop fuel m q) ≤ 2 ^ q * m := by
  induction fuel with
  | zero => intro m q hm; simp only [shiftLoop]; nlinarith [Nat.one_le_two_pow (n := q)]
  | succ f ih =>
    intro m q hm
    simp only [shiftLoop]
    split
    · nlinarith [Nat.one_le_two_pow (n := q)]
    · rename_i h
      have h1 : 1 ≤ m >>> 1 := Nat.one_le_iff_ne_zero.mpr h
      have h2 := ih (m >>> 1) (q + 1) h1
      have h3 : 2 * (m >>> 1) ≤ m := by
        rw [Nat.shiftRight_eq_div_pow]; omega
      calc 2 ^ shiftLoop f (m >>> 1) (q + 1) ≤ 2 ^ (q + 1) * (m >>> 1) := h2
        _ = 2 ^ q * (2 * (m >>> 1)) := by ring
        _ ≤ 2 ^ q * m := Nat.mul_le_mul_left _ h3

theorem two_pow_shiftCount_le (m : Nat) (hm : 1 ≤ m) : 2 ^ shiftCount m ≤ m := by
  have := shiftLoop_pow_le m m 0 hm
  simpa [shiftCount] using this

theorem shiftLoop_eq_log2 (fuel : Nat) :
    ∀ m q, m ≤ fuel → shiftLoop fuel m q = q + Nat.log2 m := by
  induction fuel with
  | zero =>
    intro m q hm
    have : m = 0 := by omega
    subst this
    simp [shiftLoop, Nat.log2]
  | succ f ih =>
    intro m q hm
    simp only [shiftLoop]
    have hdiv : m >>> 1 = m / 2 := by rw [Nat.shiftRight_eq_div_pow]
    split
    · rename_i h
      rw [hdiv] at h
      have : ¬ m ≥ 2 := by omega
      rw [Nat.log2, if_neg this]
      rfl
    · rename_i h
      rw [hdiv] at h
      have h2 : m ≥ 2 := by omega
      rw [ih (m >>> 1) (q + 1) (by rw [hdiv]; omega)]
      conv_rhs => rw [Nat.log2, if_pos h2]
      rw [hdiv]
      omega

theorem shiftCount_eq_log2 (m : Nat) : shiftCount m = Nat.log2 m := by
  unfold shiftCount
  rw [shiftLoop_eq_log2 m m 0 (le_refl m)]
  simp

theorem nsets_pos (g : Config) : 1 ≤ nsets g := by
  unfold nsets
  simp only
  split <;> omega

theorem wrap32_of_fits (x : Int) (h0 : -2 ^ 31 ≤ x) (h1 : x < 2 ^ 31) : wrap32 x = x := by
  unfold wrap32
  rw [Int.emod_eq_of_lt (by omega) (by omega)]
  omega

theorem nsets_of_fits (g : Config) (hfit : g.cacheSize * 1024 < 2 ^ 31) :
    nsets g = max 1 ((g.cacheSize * 1024) / g.blockSize / g.associativity) := by
  have hw : wrap32 ((g.cacheSize : Int) * 1024) = ((g.cacheSize * 1024 : Nat) : Int) := by
    rw [wrap32_of_fits _ (by omega) (by omega)]
    push_cast
    rfl
  unfold nsets
  simp only
  rw [hw, ← Int.ofNat_tdiv, ← Int.ofNat_tdiv]
  split
  · rename_i h
    have : (g.cacheSize * 1024) / g.blockSize / g.associativity < 1 := by exact_mod_cast h
    omega
  · rename_i h
    have : ¬ (g.cacheSize * 1024) / g.blockSize / g.associativity < 1 := by
      intro hc; apply h; exact_mod_cast hc
    rw [Int.toNat_ofNat]
    omega

theorem nsets_wraps :
    nsets { cacheSize := 2097152, associativity := 1, blockSize := 64 } = 1 := by
  decide

theorem land_lowMask_nonneg (x : Int) (k : Nat) : 0 ≤ Int.land x (lowMask k) := by
  cases x <;> simp [Int.land, lowMask]

theorem land_lowMask_lt (x : Int) (k : Nat) : Int.land x (lowMask k) < 2 ^ k := by
  have hk : (1 <<< k) - 1 < 2 ^ k := by
    rw [Nat.one_shiftLeft]; exact Nat.sub_lt (Nat.two_pow_pos k) Nat.one_pos
  cases x with
  | ofNat n =>
    simp only [Int.land, lowMask]
    have : n &&& ((1 <<< k) - 1) ≤ (1 <<< k) - 1 := Nat.and_le_right
    exact_mod_cast lt_of_le_of_lt this hk
  | negSucc n =>
    simp only [Int.land, lowMask]
    have : Nat.ldiff ((1 <<< k) - 1) n < 2 ^ k := by
      apply Nat.lt_pow_two_of_testBit
      intro i hi
      rw [Nat.testBit_ldiff, Nat.one_shiftLeft, Nat.testBit_two_pow_sub_one]
      simp; omega
    exact_mod_cast this

theorem setIndex_lt (g : Config) (a : Int) : setIndex g a < nsets g := by
  have h1 := land_lowMask_lt (a >>> bbits g) (ibits g)
  have h0 := land_lowMask_nonneg (a >>> bbits g) (ibits g)
  have h2 := two_pow_shiftCount_le (nsets g) (nsets_pos g)
  unfold setIndex index
  unfold ibits at h1 h0
  have : ((Int.land (a >>> bbits g) (lowMask (shiftCount (nsets g)))).toNat : Int) < (nsets g : Int) := by
    rw [Int.toNat_of_nonneg h0]
    calc _ < (2 : Int) ^ shiftCount (nsets g) := h1
      _ ≤ nsets g := by exact_mod_cast h2
  unfold ibits
  exact_mod_cast this

/-! ## The way scan meets its specification -/

theorem getD_append_cons_length (pre rest : List set_node) (w : set_node) :
    (pre ++ w :: rest).getD pre.length noWay = w := by
  induction pre with
  | nil => rfl
  | cons a pre ih => simpa using ih

theorem scanLoop_spec (t : Int) (ways : List set_node) :
    ∀ (rest pre : List set_node) (max : Int) (v : Nat), ways = pre ++ rest →
      v < ways.length → (ways.getD v noWay).lru = max →
      (∀ q, q < pre.length → (ways.getD q noWay).lru ≤ max) →
      (∀ q, q < v → (ways.getD q noWay).lru < max) →
      (∀ q, q < pre.length → ¬ Matches t (ways.getD q noWay)) →
      ScanSpec t ways (scanLoop t rest pre.length max v) := by
  intro rest
  induction rest with
  | nil =>
    intro pre max v hw hv hmax hle hlt hno
    have hlen : ways.length = pre.length := by simp [hw]
    simp only [scanLoop, ScanSpec]
    refine ⟨fun q hq => hno q (hlen ▸ hq), hv, fun q hq => ?_, fun q hq => ?_⟩
    · rw [hmax]; exact hle q (hlen ▸ hq)
    · rw [hmax]; exact hlt q hq
  | cons temp rest ih =>
    intro pre max v hw hv hmax hle hlt hno
    have htemp : ways.getD pre.length noWay = temp := by
      rw [hw]; exact getD_append_cons_length pre rest temp
    have hw2 : ways = (pre ++ [temp]) ++ rest := by simp [hw]
    have hlen2 : (pre ++ [temp]).length = pre.length + 1 := by simp
    simp only [scanLoop]
    split
    · rename_i hm
      simp only [ScanSpec]
      refine ⟨?_, ?_, hno⟩
      · rw [hw]; simp
      · rw [htemp]; exact hm
    · rename_i hm
      have hno2 : ∀ q, q < (pre ++ [temp]).length → ¬ Matches t (ways.getD q noWay) := by
        intro q hq
        rw [hlen2] at hq
        rcases Nat.lt_succ_iff_lt_or_eq.mp hq with h | h
        · exact hno q h
        · rw [h, htemp]; exact hm
      split
      · rename_i hgt
        have := ih (pre ++ [temp]) temp.lru pre.length hw2 (by rw [hw]; simp) (by rw [htemp])
          (by
            intro q hq
            rw [hlen2] at hq
            rcases Nat.lt_succ_iff_lt_or_eq.mp hq with h | h
            · exact le_of_lt (lt_of_le_of_lt (hle q h) hgt)
            · rw [h, htemp])
          (fun q hq => lt_of_le_of_lt (hle q hq) hgt) hno2
        rwa [hlen2] at this
      · rename_i hgt
        have := ih (pre ++ [temp]) max v hw2 hv hmax
          (by
            intro q hq
            rw [hlen2] at hq
            rcases Nat.lt_succ_iff_lt_or_eq.mp hq with h | h
            · exact hle q h
            · rw [h, htemp]; exact not_lt.mp hgt)
          hlt hno2
        rwa [hlen2] at this

theorem scan_spec (t : Int) (ways : List set_node) (hne : ways ≠ []) :
    ScanSpec t ways (scan t ways) := by
  cases ways with
  | nil => exact absurd rfl hne
  | cons head rest =>
    simp only [scan]
    exact scanLoop_spec t (head :: rest) (head :: rest) [] head.lru 0 rfl (by simp) (by simp)
      (by simp) (by simp) (by simp)

/-! ## Lists of ways and buffers -/

theorem length_modifyAt (f : set_node → set_node) (ws : List set_node) :
    ∀ p, (modifyAt f ws p).length = ws.length := by
  induction ws with
  | nil => intro p; rfl
  | cons w ws ih =>
    intro p
    cases p with
    | zero => rfl
    | succ p => simp [modifyAt, ih]

theorem getD_modifyAt_self (f : set_node → set_node) (ws : List set_node) :
    ∀ p, p < ws.length → (modifyAt f ws p).getD p noWay = f (ws.getD p noWay) := by
  induction ws with
  | nil => intro p hp; simp at hp
  | cons w ws ih =>
    intro p hp
    cases p with
    | zero => rfl
    | succ p =>
      simp only [modifyAt, List.getD_cons_succ]
      exact ih p (by simpa using hp)

theorem getD_modifyAt_ne (f : set_node → set_node) (ws : List set_node) :
    ∀ p q, q ≠ p → (modifyAt f ws p).getD q noWay = ws.getD q noWay := by
  induction ws with
  | nil => intro p q _; rfl
  | cons w ws ih =>
    intro p q hq
    cases p with
    | zero =>
      cases q with
      | zero => exact absurd rfl hq
      | succ q => rfl
    | succ p =>
      cases q with
      | zero => rfl
      | succ q =>
        simp only [modifyAt, List.getD_cons_succ]
        exact ih p q (by omega)

theorem length_ageLoop (u : Nat) (ws : List set_node) :
    ∀ i, (ageLoop u ws i).length = ws.length := by
  induction ws with
  | nil => intro i; rfl
  | cons w ws ih => intro i; simp [ageLoop, ih]

theorem getD_ageLoop (u : Nat) (ws : List set_node) :
    ∀ i q, q < ws.length → (ageLoop u ws i).getD q noWay =
      if i + q = u then ws.getD q noWay
      else { ws.getD q noWay with lru := (ws.getD q noWay).lru + 1 } := by
  induction ws with
  | nil => intro i q hq; simp at hq
  | cons w ws ih =>
    intro i q hq
    cases q with
    | zero => simp [ageLoop]
    | succ q =>
      simp only [ageLoop, List.getD_cons_succ]
      rw [ih (i + 1) q (by simpa using hq)]
      have : i + 1 + q = i + (q + 1) := by omega
      rw [this]

theorem length_copyLoop (dst : List Nat) (off : Nat) (src : List Nat) :
    ∀ n, (copyLoop dst off src n).length = dst.length := by
  intro n
  induction n with
  | zero => rfl
  | succ n ih => simp [copyLoop, ih]

theorem getD_copyLoop (dst : List Nat) (off : Nat) (src : List Nat) :
    ∀ n j, (copyLoop dst off src n).getD j 0 =
      if off ≤ j ∧ j < off + n ∧ j < dst.length then src.getD (j - off) 0 else dst.getD j 0 := by
  intro n
  induction n with
  | zero =>
    intro j
    have h : ¬ (off ≤ j ∧ j < off + 0 ∧ j < dst.length) := by omega
    simp only [copyLoop, if_neg h]
  | succ n ih =>
    intro j
    simp only [copyLoop]
    rw [List.getD_eq_getElem?_getD, List.getElem?_set]
    by_cases hj : off + n = j
    · subst hj
      simp only [if_true, length_copyLoop]
      by_cases hl : off + n < dst.length
      · simp [hl]
      · have : dst[off + n]? = none := List.getElem?_eq_none (by omega)
        simp [hl, List.getD_eq_getElem?_getD, this]
    · simp only [hj, if_false]
      rw [← List.getD_eq_getElem?_getD, ih j]
      by_cases h1 : off ≤ j ∧ j < off + n ∧ j < dst.length
      · have h2 : off ≤ j ∧ j < off + (n + 1) ∧ j < dst.length := ⟨h1.1, by omega, h1.2.2⟩
        rw [if_pos h1, if_pos h2]
      · have h2 : ¬ (off ≤ j ∧ j < off + (n + 1) ∧ j < dst.length) := by
          intro h; apply h1; exact ⟨h.1, by omega, h.2.2⟩
        rw [if_neg h1, if_neg h2]

/-! ## One trace record on one set -/

theorem touchSet_hit (g : Config) (mem : Mem) (ways : List set_node) (op : Op) :
    (touchSet g mem ways op).hit = (scan (tagOf g op) ways).1.isSome := by
  unfold touchSet tagOf
  cases op <;> simp only [Op.currAddress] <;> split <;> simp_all

theorem touchSet_used (g : Config) (mem : Mem) (ways : List set_node) (op : Op) :
    (touchSet g mem ways op).used =
      match (scan (tagOf g op) ways).1 with
      | some p => p
      | none => (scan (tagOf g op) ways).2 := by
  unfold touchSet tagOf
  cases op <;> simp only [Op.currAddress] <;> split <;> simp_all

theorem touchSet_used_lt (g : Config) (mem : Mem) (ways : List set_node) (op : Op)
    (hne : ways ≠ []) : (touchSet g mem ways op).used < ways.length := by
  rw [touchSet_used]
  have h := scan_spec (tagOf g op) ways hne
  unfold ScanSpec at h
  split <;> rename_i heq <;> rw [heq] at h
  · exact h.1
  · exact h.2.1

theorem touchSet_length (g : Config) (mem : Mem) (ways : List set_node) (op : Op) :
    (touchSet g mem ways op).ways.length = ways.length := by
  unfold touchSet
  cases op <;> simp only [Op.currAddress] <;> split <;> simp [length_modifyAt]

theorem touchSet_other (g : Config) (mem : Mem) (ways : List set_node) (op : Op) (q : Nat)
    (hq : q ≠ (touchSet g mem ways op).used) :
    (touchSet g mem ways op).ways.getD q noWay = ways.getD q noWay := by
  revert hq
  unfold touchSet
  cases op <;> simp only [Op.currAddress] <;> split <;> intro hq <;>
    exact getD_modifyAt_ne _ _ _ _ hq

theorem touchSet_used_meta (g : Config) (mem : Mem) (ways : List set_node) (op : Op)
    (hne : ways ≠ []) :
    Matches (tagOf g op) ((touchSet g mem ways op).ways.getD (touchSet g mem ways op).used noWay) ∧
      ((touchSet g mem ways op).ways.getD (touchSet g mem ways op).used noWay).lru = 0 := by
  have hlt := touchSet_used_lt g mem ways op hne
  have hs := scan_spec (tagOf g op) ways hne
  revert hlt hs
  unfold touchSet ScanSpec tagOf Matches
  cases op <;> simp only [Op.currAddress] <;> split <;> rename_i heq <;> intro hlt hs <;>
    rw [getD_modifyAt_self _ _ _ hlt] <;>
    first
      | exact ⟨⟨rfl, rfl⟩, rfl⟩
      | exact ⟨⟨rfl, hs.2.1.2⟩, rfl⟩

theorem accessSet_length (g : Config) (mem : Mem) (ways : List set_node) (op : Op) :
    (accessSet g mem ways op).ways.length = ways.length := by
  unfold accessSet
  simp only
  split
  · rw [length_ageLoop, touchSet_length]
  · rw [touchSet_length]

theorem accessSet_used_lt (g : Config) (mem : Mem) (ways : List set_node) (op : Op)
    (hne : ways ≠ []) : (accessSet g mem ways op).used < ways.length :=
  touchSet_used_lt g mem ways op hne

theorem accessSet_used_way (g : Config) (mem : Mem) (ways : List set_node) (op : Op)
    (hne : ways ≠ []) :
    (accessSet g mem ways op).ways.getD (accessSet g mem ways op).used noWay =
      (touchSet g mem ways op).ways.getD (touchSet g mem ways op).used noWay := by
  have hlt := touchSet_used_lt g mem ways op hne
  unfold accessSet
  simp only
  split
  · rw [getD_ageLoop _ _ _ _ (by rw [touchSet_length]; exact hlt)]
    simp
  · rfl

theorem accessSet_used_meta (g : Config) (mem : Mem) (ways : List set_node) (op : Op)
    (hne : ways ≠ []) :
    Matches (tagOf g op)
        ((accessSet g mem ways op).ways.getD (accessSet g mem ways op).used noWay) ∧
      ((accessSet g mem ways op).ways.getD (accessSet g mem ways op).used noWay).lru = 0 := by
  rw [accessSet_used_way g mem ways op hne]
  exact touchSet_used_meta g mem ways op hne

theorem accessSet_other (g : Config) (mem : Mem) (ways : List set_node) (op : Op) (q : Nat)
    (hq : q ≠ (accessSet g mem ways op).used) (hlt : q < ways.length) :
    (accessSet g mem ways op).ways.getD q noWay =
      if g.associativity > 1 then
        { ways.getD q noWay with lru := (ways.getD q noWay).lru + 1 }
      else ways.getD q noWay := by
  have hq2 : q ≠ (touchSet g mem ways op).used := hq
  unfold accessSet
  simp only
  split
  · rw [getD_ageLoop _ _ _ _ (by rw [touchSet_length]; exact hlt)]
    rw [if_neg (by omega), touchSet_other g mem ways op q hq2]
  · exact touchSet_other g mem ways op q hq2

theorem accessSet_hit_iff (g : Config) (mem : Mem) (ways : List set_node) (op : Op) :
    (accessSet g mem ways op).hit = true ↔
      ∃ q, q < ways.length ∧ Matches (tagOf g op) (ways.getD q noWay) := by
  show (touchSet g mem ways op).hit = true ↔ _
  rw [touchSet_hit]
  cases ways with
  | nil => simp [scan]
  | cons head rest =>
    have h := scan_spec (tagOf g op) (head :: rest) (by simp)
    unfold ScanSpec at h
    split at h
    · rename_i p heq
      rw [heq]
      simp only [Option.isSome_some, true_iff]
      exact ⟨p, h.1, h.2.1⟩
    · rename_i heq
      rw [heq]
      simp only [Option.isSome_none, Bool.false_eq_true, false_iff]
      rintro ⟨q, hq, hm⟩
      exact h.1 q hq hm

theorem accessSet_hit_used (g : Config) (mem : Mem) (ways : List set_node) (op : Op)
    (hit : (accessSet g mem ways op).hit = true) :
    (accessSet g mem ways op).used < ways.length ∧
      Matches (tagOf g op) (ways.getD (accessSet g mem ways op).used noWay) ∧
      ∀ q, q < (accessSet g mem ways op).used → ¬ Matches (tagOf g op) (ways.getD q noWay) := by
  have hit2 : (touchSet g mem ways op).hit = true := hit
  show (touchSet g mem ways op).used < _ ∧ Matches _ (ways.getD (touchSet g mem ways op).used _) ∧
    ∀ q, q < (touchSet g mem ways op).used → _
  rw [touchSet_hit] at hit2
  rw [touchSet_used]
  cases ways with
  | nil => simp [scan] at hit2
  | cons head rest =>
    have h := scan_spec (tagOf g op) (head :: rest) (by simp)
    unfold ScanSpec at h
    split at h
    · exact h
    · rename_i heq
      rw [heq] at hit2
      simp at hit2

theorem accessSet_miss_used (g : Config) (mem : Mem) (ways : List set_node) (op : Op)
    (hne : ways ≠ []) (miss : (accessSet g mem ways op).hit = false) :
    (accessSet g mem ways op).used < ways.length ∧
      (∀ q, q < ways.length →
        (ways.getD q noWay).lru ≤ (ways.getD (accessSet g mem ways op).used noWay).lru) ∧
      ∀ q, q < (accessSet g mem ways op).used →
        (ways.getD q noWay).lru < (ways.getD (accessSet g mem ways op).used noWay).lru := by
  have miss2 : (touchSet g mem ways op).hit = false := miss
  show (touchSet g mem ways op).used < _ ∧
    (∀ q, q < ways.length → _ ≤ (ways.getD (touchSet g mem ways op).used noWay).lru) ∧
    ∀ q, q < (touchSet g mem ways op).used →
      _ < (ways.getD (touchSet g mem ways op).used noWay).lru
  rw [touchSet_hit] at miss2
  rw [touchSet_used]
  have h := scan_spec (tagOf g op) ways hne
  unfold ScanSpec at h
  split at h
  · rename_i p heq
    rw [heq] at miss2
    simp at miss2
  · exact h.2

/-! ## One trace record on the cache -/

theorem access_cache_length (g : Config) (c : Cache) (mem : Mem) (op : Op) :
    (access g c mem op).cache.length = c.length := by
  simp [access]

theorem access_cache_self (g : Config) (c : Cache) (mem : Mem) (op : Op)
    (hi : setIndex g op.currAddress < c.length) :
    (access g c mem op).cache.getD (setIndex g op.currAddress) [] =
      (accessSet g mem (c.getD (setIndex g op.currAddress) []) op).ways := by
  simp [access, List.getD_eq_getElem?_getD, List.getElem?_set, hi]

theorem access_cache_other (g : Config) (c : Cache) (mem : Mem) (op : Op) (j : Nat)
    (hj : j ≠ setIndex g op.currAddress) :
    (access g c mem op).cache.getD j [] = c.getD j [] := by
  simp [access, List.getD_eq_getElem?_getD, List.getElem?_set, Ne.symm hj]

/-! ## Invariants of reachable states -/

theorem touchSet_data_length (g : Config) (mem : Mem) (ways : List set_node) (op : Op) (q : Nat)
    (hq : q < ways.length) :
    ((touchSet g mem ways op).ways.getD q noWay).data.length =
      (ways.getD q noWay).data.length := by
  by_cases hqu : q = (touchSet g mem ways op).used
  · revert hqu
    unfold touchSet
    cases op <;> simp only [Op.currAddress] <;> split <;> intro hqu <;> subst hqu <;>
      rw [getD_modifyAt_self _ _ _ hq] <;> simp only [length_copyLoop]
  · rw [touchSet_other g mem ways op q hqu]

theorem accessSet_data_length (g : Config) (mem : Mem) (ways : List set_node) (op : Op) (q : Nat)
    (hq : q < ways.length) :
    ((accessSet g mem ways op).ways.getD q noWay).data.length =
      (ways.getD q noWay).data.length := by
  unfold accessSet
  simp only
  split
  · rw [getD_ageLoop _ _ _ _ (by rw [touchSet_length]; exact hq)]
    split <;> exact touchSet_data_length g mem ways op q hq
  · exact touchSet_data_length g mem ways op q hq

theorem accessSet_shape (g : Config) (mem : Mem) (ways : List set_node) (op : Op)
    (h : SetShape g ways) : SetShape g (accessSet g mem ways op).ways := by
  refine ⟨by rw [accessSet_length]; exact h.1, fun q hq => ?_⟩
  rw [accessSet_length] at hq
  rw [accessSet_data_length g mem ways op q hq]
  exact h.2 q hq

theorem access_wellFormed (g : Config) (c : Cache) (mem : Mem) (op : Op)
    (h : WellFormed g c) : WellFormed g (access g c mem op).cache := by
  refine ⟨by rw [access_cache_length]; exact h.1, fun i hi => ?_⟩
  rw [access_cache_length] at hi
  by_cases hij : i = setIndex g op.currAddress
  · subst hij
    rw [access_cache_self g c mem op hi]
    exact accessSet_shape g mem _ op (h.2 _ hi)
  · rw [access_cache_other g c mem op i hij]
    exact h.2 i hi

theorem shape_ne_nil (g : Config) (s : List set_node) (h : SetShape g s) : s ≠ [] := by
  intro hs
  have := h.1
  rw [hs] at this
  simp at this
  omega

theorem wellFormed_set_ne_nil (g : Config) (c : Cache) (h : WellFormed g c) (a : Int) :
    c.getD (setIndex g a) [] ≠ [] :=
  shape_ne_nil g _ (h.2 _ (by rw [h.1]; exact setIndex_lt g a))

theorem accessSet_agesNonneg (g : Config) (mem : Mem) (ways : List set_node) (op : Op)
    (hne : ways ≠ []) (h : AgesNonneg ways) : AgesNonneg (accessSet g mem ways op).ways := by
  intro q hq
  rw [accessSet_length] at hq
  by_cases hqu : q = (accessSet g mem ways op).used
  · rw [hqu, (accessSet_used_meta g mem ways op hne).2]
  · rw [accessSet_other g mem ways op q hqu hq]
    have := h q hq
    split
    · show 0 ≤ (ways.getD q noWay).lru + 1
      omega
    · exact this

theorem accessSet_other_tag_valid (g : Config) (mem : Mem) (ways : List set_node) (op : Op)
    (q : Nat) (hq : q ≠ (accessSet g mem ways op).used) (hlt : q < ways.length) :
    ((accessSet g mem ways op).ways.getD q noWay).tag = (ways.getD q noWay).tag ∧
      ((accessSet g mem ways op).ways.getD q noWay).valid = (ways.getD q noWay).valid := by
  rw [accessSet_other g mem ways op q hq hlt]
  split <;> exact ⟨rfl, rfl⟩

theorem accessSet_noDupTags (g : Config) (mem : Mem) (ways : List set_node) (op : Op)
    (hne : ways ≠ []) (h : NoDupTags ways) : NoDupTags (accessSet g mem ways op).ways := by
  have hu := accessSet_used_meta g mem ways op hne
  have key : ∀ q, q < ways.length → q ≠ (accessSet g mem ways op).used →
      ((accessSet g mem ways op).ways.getD q noWay).valid = 1 →
      ((accessSet g mem ways op).ways.getD q noWay).tag = tagOf g op → False := by
    intro q hq hqu hv ht
    have hm := accessSet_other_tag_valid g mem ways op q hqu hq
    rw [hm.2] at hv
    rw [hm.1] at ht
    have hhit : (accessSet g mem ways op).hit = true :=
      (accessSet_hit_iff g mem ways op).mpr ⟨q, hq, ht, hv⟩
    have hused := accessSet_hit_used g mem ways op hhit
    exact hqu (h q _ hq hused.1 hv hused.2.1.2 (by rw [ht, hused.2.1.1]))
  intro p q hp hq hvp hvq htag
  rw [accessSet_length] at hp hq
  by_cases hpu : p = (accessSet g mem ways op).used
  · by_cases hqu : q = (accessSet g mem ways op).used
    · rw [hpu, hqu]
    · exfalso
      apply key q hq hqu hvq
      rw [← htag, hpu]
      exact hu.1.1
  · by_cases hqu : q = (accessSet g mem ways op).used
    · exfalso
      apply key p hp hpu hvp
      rw [htag, hqu]
      exact hu.1.1
    · have hmp := accessSet_other_tag_valid g mem ways op p hpu hp
      have hmq := accessSet_other_tag_valid g mem ways op q hqu hq
      rw [hmp.2] at hvp
      rw [hmq.2] at hvq
      rw [hmp.1, hmq.1] at htag
      exact h p q hp hq hvp hvq htag

theorem getD_mem_of_lt {α : Type} (l : List α) (d : α) (n : Nat) (h : n < l.length) :
    l.getD n d ∈ l := by
  rw [List.getD_eq_getElem l d h]
  exact List.getElem_mem h

theorem initial_inv (g : Config) (c : Cache) (h : IsInitial g c) : CacheInv g c := by
  obtain ⟨hlen, hsets⟩ := h
  refine ⟨⟨hlen, fun i hi => ?_⟩, fun i hi => ?_⟩
  · have hs := hsets _ (getD_mem_of_lt c [] i hi)
    exact ⟨hs.1, fun q hq => (hs.2 _ (getD_mem_of_lt _ noWay q hq)).2.2.2⟩
  · have hs := hsets _ (getD_mem_of_lt c [] i hi)
    refine ⟨fun q hq => ?_, fun p q hp _ hvp _ _ => ?_⟩
    · rw [(hs.2 _ (getD_mem_of_lt _ noWay q hq)).2.2.1]
    · have := (hs.2 _ (getD_mem_of_lt _ noWay p hp)).1
      rw [this] at hvp
      exact absurd hvp (by decide)

theorem access_inv (g : Config) (c : Cache) (mem : Mem) (op : Op) (h : CacheInv g c) :
    CacheInv g (access g c mem op).cache := by
  refine ⟨access_wellFormed g c mem op h.1, fun i hi => ?_⟩
  rw [access_cache_length] at hi
  by_cases hij : i = setIndex g op.currAddress
  · subst hij
    rw [access_cache_self g c mem op hi]
    have hne := wellFormed_set_ne_nil g c h.1 op.currAddress
    exact ⟨accessSet_agesNonneg g mem _ op hne (h.2 _ hi).1,
      accessSet_noDupTags g mem _ op hne (h.2 _ hi).2⟩
  · rw [access_cache_other g c mem op i hij]
    exact h.2 i hi

theorem reachable_inv (g : Config) (c : Cache) (mem : Mem) (h : Reachable g c mem) :
    CacheInv g c := by
  induction h with
  | init c mem hi => exact initial_inv g c hi
  | step c mem op _ ih => exact access_inv g c mem op ih

theorem zeroCache_initial (g : Config) : IsInitial g (zeroCache g) := by
  refine ⟨by simp [zeroCache], fun s hs => ?_⟩
  have hs2 : s = List.replicate (1 + (g.associativity - 1))
      { data := List.replicate g.blockSize 0, tag := 0, dirty := 0, valid := 0, lru := 0 } :=
    List.eq_of_mem_replicate hs
  subst hs2
  refine ⟨by simp, fun w hw => ?_⟩
  have hw2 := List.eq_of_mem_replicate hw
  subst hw2
  exact ⟨rfl, rfl, rfl, by simp⟩

theorem reachable_main_loop (g : Config) (ops : List Op) :
    ∀ (c : Cache) (mem : Mem), Reachable g c mem →
      Reachable g (main_loop g c mem ops).1 (main_loop g c mem ops).2 := by
  induction ops with
  | nil => intro c mem h; exact h
  | cons op rest ih =>
    intro c mem h
    simp only [main_loop]
    exact ih _ _ (Reachable.step c mem op h)

theorem reachable_zero (g : Config) (mem : Mem) (ops : List Op) :
    Reachable g (main_loop g (zeroCache g) mem ops).1 (main_loop g (zeroCache g) mem ops).2 :=
  reachable_main_loop g ops _ _ (Reachable.init _ _ (zeroCache_initial g))

/-! ## Bytes read and written -/

theorem ext_getD (l₁ l₂ : List Nat) (hlen : l₁.length = l₂.length)
    (h : ∀ j, j < l₁.length → l₁.getD j 0 = l₂.getD j 0) : l₁ = l₂ := by
  apply List.ext_getElem hlen
  intro j h1 h2
  have := h j h1
  rwa [List.getD_eq_getElem l₁ 0 h1, List.getD_eq_getElem l₂ 0 h2] at this

theorem copyLoop_full (dst src : List Nat) (n : Nat) (hd : dst.length = n)
    (hs : src.length = n) : copyLoop dst 0 src n = src := by
  apply ext_getD
  · rw [length_copyLoop, hd, hs]
  · intro j hj
    rw [length_copyLoop] at hj
    rw [getD_copyLoop, if_pos ⟨Nat.zero_le j, by omega, hj⟩]
    simp

theorem length_read_from_memory (mem : Mem) (addr : Int) (len : Nat) :
    (read_from_memory mem addr len).length = len := by
  simp [read_from_memory]

theorem readBytes_zeros (n : Nat) : readBytes (List.replicate n 0) 0 n = List.replicate n 0 := by
  apply ext_getD
  · simp [readBytes]
  · intro j hj
    simp only [readBytes, List.length_map, List.length_range] at hj
    simp [readBytes, List.getD_eq_getElem?_getD, hj, List.getElem?_replicate]

theorem touchSet_miss_scan (g : Config) (mem : Mem) (ways : List set_node) (op : Op)
    (miss : (touchSet g mem ways op).hit = false) : (scan (tagOf g op) ways).1 = none := by
  rw [touchSet_hit] at miss
  cases h : (scan (tagOf g op) ways).1 with
  | none => rfl
  | some p => rw [h] at miss; simp at miss

theorem touchSet_load_miss_out (g : Config) (mem : Mem) (ways : List set_node) (a : Int)
    (n : Nat) (miss : (touchSet g mem ways (.load a n)).hit = false) :
    (touchSet g mem ways (.load a n)).out =
      if (ways.getD (touchSet g mem ways (.load a n)).used noWay).valid = 0 then
        readBytes (List.replicate n 0) 0 n
      else
        readBytes (copyLoop (ways.getD (touchSet g mem ways (.load a n)).used noWay).data 0
          (read_from_memory mem (baseOf g (.load a n)) g.blockSize) g.blockSize)
          (offOf g (.load a n)) n := by
  have hs := touchSet_miss_scan g mem ways (.load a n) miss
  unfold tagOf at hs
  unfold touchSet baseOf offOf
  simp only [Op.currAddress] at hs ⊢
  rw [hs]

theorem touchSet_store_data (g : Config) (mem : Mem) (ways : List set_node) (a : Int) (n : Nat)
    (v : List Nat) (hne : ways ≠ []) :
    ((touchSet g mem ways (.store a n v)).ways.getD
        (touchSet g mem ways (.store a n v)).used noWay).data =
      copyLoop (ways.getD (touchSet g mem ways (.store a n v)).used noWay).data
        (offOf g (.store a n v)) v n := by
  have hlt := touchSet_used_lt g mem ways (.store a n v) hne
  revert hlt
  unfold touchSet offOf
  simp only [Op.currAddress]
  split <;> intro hlt <;> rw [getD_modifyAt_self _ _ _ hlt]

theorem touchSet_load_hit_out (g : Config) (mem : Mem) (ways : List set_node) (a : Int)
    (n : Nat) (hit : (touchSet g mem ways (.load a n)).hit = true) :
    (touchSet g mem ways (.load a n)).out =
      readBytes (ways.getD (touchSet g mem ways (.load a n)).used noWay).data
        (offOf g (.load a n)) n := by
  revert hit
  unfold touchSet offOf
  simp only [Op.currAddress]
  split
  · intro _; rfl
  · intro hit; simp at hit

theorem readBytes_copyLoop (d v : List Nat) (off n : Nat) (hoff : off + n ≤ d.length)
    (hv : v.length = n) : readBytes (copyLoop d off v n) off n = v := by
  apply ext_getD
  · simp [readBytes, hv]
  · intro j hj
    simp only [readBytes, List.length_map, List.length_range] at hj
    have h1 : (readBytes (copyLoop d off v n) off n).getD j 0 =
        (copyLoop d off v n).getD (off + j) 0 := by
      simp [readBytes, List.getD_eq_getElem?_getD, hj]
    rw [h1, getD_copyLoop, if_pos ⟨by omega, by omega, by omega⟩]
    congr 1
    omega

/-! ## Recency order within a set -/

theorem recent_init (ways : List set_node) (h : AgesNonneg ways) : Recent [] ways :=
  ⟨fun _ => 0, fun j hj => absurd hj (by simp), fun q hq _ => by simpa using h q hq⟩

theorem exists_free_position (pos : Nat → Nat) (n k : Nat) (h : n < k) :
    ∃ q, q < k ∧ ∀ j, j < n → pos j ≠ q := by
  have hcard : ((Finset.range n).image pos).card < (Finset.range k).card := by
    calc ((Finset.range n).image pos).card ≤ (Finset.range n).card := Finset.card_image_le
      _ = n := Finset.card_range n
      _ < k := h
      _ = (Finset.range k).card := (Finset.card_range k).symm
  by_contra hcon
  push_neg at hcon
  have hsub : Finset.range k ⊆ (Finset.range n).image pos := by
    intro q hq
    obtain ⟨j, hj, hpj⟩ := hcon q (Finset.mem_range.mp hq)
    exact Finset.mem_image.mpr ⟨j, Finset.mem_range.mpr hj, hpj⟩
  exact absurd (Finset.card_le_card hsub) (not_le.mpr hcard)

theorem all_positions_taken (pos : Nat → Nat) (k : Nat) (hlt : ∀ j, j < k → pos j < k)
    (hinj : ∀ j j2, j < k → j2 < k → pos j = pos j2 → j = j2) :
    ∀ q, q < k → ∃ j, j < k ∧ pos j = q := by
  have hsub : (Finset.range k).image pos ⊆ Finset.range k := by
    intro x hx
    obtain ⟨j, hj, rfl⟩ := Finset.mem_image.mp hx
    exact Finset.mem_range.mpr (hlt j (Finset.mem_range.mp hj))
  have hcard : ((Finset.range k).image pos).card = (Finset.range k).card := by
    apply Finset.card_image_of_injOn
    intro j hj j2 hj2 he
    exact hinj j j2 (Finset.mem_range.mp (Finset.mem_coe.mp hj))
      (Finset.mem_range.mp (Finset.mem_coe.mp hj2)) he
  have heq := Finset.eq_of_subset_of_card_le hsub (le_of_eq hcard.symm)
  intro q hq
  have : q ∈ (Finset.range k).image pos := by rw [heq]; exact Finset.mem_range.mpr hq
  obtain ⟨j, hj, hjq⟩ := Finset.mem_image.mp this
  exact ⟨j, Finset.mem_range.mp hj, hjq⟩

theorem getD_mem_int (ts : List Int) (j : Nat) (hj : j < ts.length) : ts.getD j 0 ∈ ts :=
  getD_mem_of_lt ts 0 j hj

theorem recent_used_free (g : Config) (mem : Mem) (ways : List set_node) (op : Op)
    (ts : List Int) (pos : Nat → Nat) (hne : ways ≠ [])
    (hpos : ∀ j, j < ts.length → pos j < ways.length ∧
      Matches (ts.getD j 0) (ways.getD (pos j) noWay) ∧
      (ways.getD (pos j) noWay).lru = (j : Int))
    (hfree : ∀ q, q < ways.length → (∀ j, j < ts.length → pos j ≠ q) →
      (ts.length : Int) ≤ (ways.getD q noWay).lru)
    (hlt : ts.length < ways.length) (hnew : tagOf g op ∉ ts) :
    ∀ j, j < ts.length → pos j ≠ (accessSet g mem ways op).used := by
  intro j hj hpj
  have hp := hpos j hj
  rw [hpj] at hp
  cases hhit : (accessSet g mem ways op).hit with
  | true =>
    have hu := accessSet_hit_used g mem ways op hhit
    apply hnew
    have : ts.getD j 0 = tagOf g op := by rw [← hp.2.1.1, hu.2.1.1]
    rw [← this]
    exact getD_mem_int ts j hj
  | false =>
    have hu := accessSet_miss_used g mem ways op hne hhit
    obtain ⟨q, hq, hqfree⟩ := exists_free_position pos ts.length ways.length hlt
    have h1 := hfree q hq hqfree
    have h2 := hu.2.1 q hq
    have h3 := hp.2.2
    have h4 : (j : Int) < (ts.length : Int) := by exact_mod_cast hj
    omega

theorem recent_step (g : Config) (mem : Mem) (ways : List set_node) (op : Op) (ts : List Int)
    (hlen : ways.length = g.associativity) (hR : Recent ts ways)
    (hlt : ts.length < g.associativity) (hnew : tagOf g op ∉ ts) :
    Recent (tagOf g op :: ts) (accessSet g mem ways op).ways := by
  have hne : ways ≠ [] := by
    intro h; rw [h] at hlen; simp at hlen; omega
  obtain ⟨pos, hpos, hfree⟩ := hR
  have hufree := recent_used_free g mem ways op ts pos hne hpos hfree (by omega) hnew
  have hult := accessSet_used_lt g mem ways op hne
  have hmeta := accessSet_used_meta g mem ways op hne
  refine ⟨fun j => match j with
    | 0 => (accessSet g mem ways op).used
    | j + 1 => pos j, ?_, ?_⟩
  · intro j hj
    cases j with
    | zero =>
      refine ⟨by rw [accessSet_length]; exact hult, ?_, ?_⟩
      · simpa using hmeta.1
      · simpa using hmeta.2
    | succ j =>
      have hj2 : j < ts.length := by simpa using hj
      have hp := hpos j hj2
      have hassoc : g.associativity > 1 := by omega
      have hother := accessSet_other g mem ways op (pos j) (hufree j hj2) hp.1
      rw [if_pos hassoc] at hother
      refine ⟨by rw [accessSet_length]; exact hp.1, ?_, ?_⟩
      · show Matches ((tagOf g op :: ts).getD (j + 1) 0)
          ((accessSet g mem ways op).ways.getD (pos j) noWay)
        rw [hother, List.getD_cons_succ]
        exact hp.2.1
      · show ((accessSet g mem ways op).ways.getD (pos j) noWay).lru = ((j + 1 : Nat) : Int)
        rw [hother]
        show (ways.getD (pos j) noWay).lru + 1 = _
        rw [hp.2.2]
        push_cast
        rfl
  · intro q hq hq2
    rw [accessSet_length] at hq
    have hqu : q ≠ (accessSet g mem ways op).used := fun h => hq2 0 (by simp) h.symm
    have hqfree : ∀ j, j < ts.length → pos j ≠ q := fun j hj => hq2 (j + 1) (by simpa using hj)
    have hassoc : g.associativity > 1 := by omega
    have hother := accessSet_other g mem ways op q hqu hq
    rw [if_pos hassoc] at hother
    rw [hother]
    show ((tagOf g op :: ts).length : Int) ≤ (ways.getD q noWay).lru + 1
    have := hfree q hq hqfree
    simp only [List.length_cons]
    push_cast
    omega

theorem nodup_getD_inj (ts : List Int) (hnd : ts.Nodup) (i j : Nat) (hi : i < ts.length)
    (hj : j < ts.length) (h : ts.getD i 0 = ts.getD j 0) : i = j := by
  rw [List.getD_eq_getElem ts 0 hi, List.getD_eq_getElem ts 0 hj] at h
  exact (hnd.getElem_inj_iff).mp h

theorem recent_final (g : Config) (mem : Mem) (ways : List set_node) (op : Op) (ts : List Int)
    (hlen : ways.length = ts.length) (hpos0 : 0 < ts.length) (hR : Recent ts ways)
    (hnd : ts.Nodup) (hnew : tagOf g op ∉ ts) :
    (accessSet g mem ways op).hit = false ∧
    Matches (ts.getD (ts.length - 1) 0) (ways.getD (accessSet g mem ways op).used noWay) ∧
    (∀ j, j < ts.length - 1 → Resident (ts.getD j 0) (accessSet g mem ways op).ways) ∧
    Resident (tagOf g op) (accessSet g mem ways op).ways ∧
    ¬ Resident (ts.getD (ts.length - 1) 0) (accessSet g mem ways op).ways := by
  have hne : ways ≠ [] := by
    intro h; rw [h] at hlen; simp at hlen; omega
  obtain ⟨pos, hpos, _⟩ := hR
  have hinj : ∀ j j2, j < ts.length → j2 < ts.length → pos j = pos j2 → j = j2 := by
    intro j j2 hj hj2 he
    have h1 := (hpos j hj).2.2
    have h2 := (hpos j2 hj2).2.2
    rw [he, h2] at h1
    exact_mod_cast h1.symm
  have hall := all_positions_taken pos ts.length
    (fun j hj => by have := (hpos j hj).1; omega) hinj
  have hult := accessSet_used_lt g mem ways op hne
  have hmeta := accessSet_used_meta g mem ways op hne
  have hlen2 := accessSet_length g mem ways op
  -- the access misses
  have hmiss : (accessSet g mem ways op).hit = false := by
    cases hhit : (accessSet g mem ways op).hit with
    | false => rfl
    | true =>
      exfalso
      obtain ⟨q, hq, hm⟩ := (accessSet_hit_iff g mem ways op).mp hhit
      obtain ⟨j, hj, hjq⟩ := hall q (by omega)
      have hp := (hpos j hj).2.1
      rw [hjq] at hp
      apply hnew
      have : ts.getD j 0 = tagOf g op := by rw [← hp.1, hm.1]
      rw [← this]
      exact getD_mem_int ts j hj
  -- the victim is the oldest way
  have hmax := accessSet_miss_used g mem ways op hne hmiss
  obtain ⟨j0, hj0, hju⟩ := hall (accessSet g mem ways op).used (by omega)
  have hlast : ts.length - 1 < ts.length := by omega
  have hj0eq : j0 = ts.length - 1 := by
    have h1 := (hpos (ts.length - 1) hlast)
    have h2 := hmax.2.1 _ h1.1
    have h3 := (hpos j0 hj0).2.2
    rw [hju] at h3
    rw [h1.2.2, h3] at h2
    have : ts.length - 1 ≤ j0 := by exact_mod_cast h2
    omega
  rw [hj0eq] at hju
  have hother : ∀ j, j < ts.length → j ≠ ts.length - 1 →
      Matches (ts.getD j 0) ((accessSet g mem ways op).ways.getD (pos j) noWay) := by
    intro j hj hjne
    have hp := hpos j hj
    have hne2 : pos j ≠ (accessSet g mem ways op).used := by
      rw [← hju]; exact fun h => hjne (hinj _ _ hj hlast h)
    have := accessSet_other_tag_valid g mem ways op (pos j) hne2 hp.1
    exact ⟨by rw [this.1]; exact hp.2.1.1, by rw [this.2]; exact hp.2.1.2⟩
  refine ⟨hmiss, ?_, ?_, ?_, ?_⟩
  · rw [← hju]; exact (hpos _ hlast).2.1
  · intro j hj
    exact ⟨pos j, by rw [hlen2]; exact (hpos j (by omega)).1, hother j (by omega) (by omega)⟩
  · exact ⟨_, by rw [hlen2]; exact hult, hmeta.1⟩
  · rintro ⟨q, hq, hm⟩
    rw [hlen2] at hq
    by_cases hqu : q = (accessSet g mem ways op).used
    · rw [hqu] at hm
      apply hnew
      have : ts.getD (ts.length - 1) 0 = tagOf g op := by rw [← hm.1, hmeta.1.1]
      rw [← this]
      exact getD_mem_int ts _ hlast
    · obtain ⟨j, hj, hjq⟩ := hall q (by omega)
      have hjne : j ≠ ts.length - 1 := by
        intro h; apply hqu; rw [← hjq, h, hju]
      have hm2 := hother j hj hjne
      rw [hjq] at hm2
      have : ts.getD j 0 = ts.getD (ts.length - 1) 0 := by rw [← hm2.1, hm.1]
      exact hjne (nodup_getD_inj ts hnd j _ hj hlast this)

theorem getD_append_last (l : List Int) (x : Int) :
    (l ++ [x]).getD ((l ++ [x]).length - 1) 0 = x := by
  simp [List.getD_eq_getElem?_getD]

theorem getD_append_of_mem (l : List Int) (x t : Int) (ht : t ∈ l) :
    ∃ j, j < (l ++ [x]).length - 1 ∧ (l ++ [x]).getD j 0 = t := by
  obtain ⟨j, hj, hjt⟩ := List.mem_iff_getElem.mp ht
  refine ⟨j, by simpa using hj, ?_⟩
  rw [List.getD_eq_getElem?_getD, List.getElem?_append_left hj, List.getElem?_eq_getElem hj, hjt]
  rfl

theorem shape_length (g : Config) (s : List set_node) (h : SetShape g s)
    (hk : 1 ≤ g.associativity) : s.length = g.associativity := by
  rw [h.1]; omega

theorem recent_run (g : Config) (i : Nat) (hk : 1 ≤ g.associativity) (ops : List Op) :
    ∀ (c : Cache) (mem : Mem) (ts : List Int), WellFormed g c → Recent ts (c.getD i []) →
      (∀ op ∈ ops, setIndex g op.currAddress = i) →
      ((ops.map (tagOf g)).reverse ++ ts).Nodup →
      ts.length + ops.length ≤ g.associativity →
      WellFormed g (main_loop g c mem ops).1 ∧
        Recent ((ops.map (tagOf g)).reverse ++ ts) ((main_loop g c mem ops).1.getD i []) := by
  induction ops with
  | nil =>
    intro c mem ts hwf hR _ _ _
    exact ⟨hwf, by simpa using hR⟩
  | cons op rest ih =>
    intro c mem ts hwf hR hidx hnd hlen
    have hi : setIndex g op.currAddress = i := hidx op (by simp)
    have hic : i < c.length := by rw [← hi, hwf.1]; exact setIndex_lt g op.currAddress
    have hlist : ((op :: rest).map (tagOf g)).reverse ++ ts =
        (rest.map (tagOf g)).reverse ++ (tagOf g op :: ts) := by simp
    rw [hlist] at hnd ⊢
    have hnew : tagOf g op ∉ ts := by
      have := (List.nodup_append.mp hnd).2.1
      exact (List.nodup_cons.mp this).1
    have hset : (access g c mem op).cache.getD i [] = (accessSet g mem (c.getD i []) op).ways := by
      have := access_cache_self g c mem op (by rw [hi]; exact hic)
      rwa [hi] at this
    have hstep : Recent (tagOf g op :: ts) ((access g c mem op).cache.getD i []) := by
      rw [hset]
      exact recent_step g mem _ op ts (shape_length g _ (hwf.2 i hic) hk) hR
        (by simp at hlen; omega) hnew
    simp only [main_loop]
    exact ih _ _ (tagOf g op :: ts) (access_wellFormed g c mem op hwf) hstep
      (fun o ho => hidx o (by simp [ho])) hnd (by simp at hlen ⊢; omega)

/-! ## The decomposition of an address -/

theorem shiftRight_zero_int (a : Int) : a >>> (0 : Nat) = a := by
  cases a <;> rfl

theorem two_pow_shiftCount (k : Nat) : shiftCount (2 ^ k) = k := by
  rw [shiftCount_eq_log2, Nat.log2_two_pow]

theorem lowMask_eq (k : Nat) : lowMask k = Int.ofNat (2 ^ k - 1) := by
  unfold lowMask
  rw [Nat.one_shiftLeft]

theorem blockoff_nonneg (bb : Nat) (a : Int) : 0 ≤ blockoff bb a :=
  land_lowMask_nonneg _ _

theorem blockoff_lt (bb : Nat) (a : Int) : blockoff bb a < 2 ^ bb :=
  land_lowMask_lt _ _

theorem nat_round_trip (n bb ib : Nat) :
    ((n >>> (bb + ib)) <<< (bb + ib) ||| ((n >>> bb) &&& ((1 <<< ib) - 1)) <<< bb) |||
      (n &&& ((1 <<< bb) - 1)) = n := by
  apply Nat.eq_of_testBit_eq
  intro i
  simp only [Nat.testBit_lor, Nat.testBit_shiftLeft, Nat.testBit_shiftRight, Nat.testBit_land,
    Nat.one_shiftLeft, Nat.testBit_two_pow_sub_one]
  by_cases h1 : i < bb
  · have h2 : ¬ bb + ib ≤ i := by omega
    have h3 : ¬ bb ≤ i := by omega
    simp [h1, h2, h3]
  · by_cases h2 : i < bb + ib
    · have h3 : ¬ bb + ib ≤ i := by omega
      have h4 : bb ≤ i := by omega
      have h5 : i - bb < ib := by omega
      have h6 : bb + (i - bb) = i := by omega
      simp [h1, h3, h4, h5, h6]
    · have h3 : bb + ib ≤ i := by omega
      have h4 : bb ≤ i := by omega
      have h5 : ¬ i - bb < ib := by omega
      have h6 : bb + ib + (i - (bb + ib)) = i := by omega
      simp [h1, h3, h4, h5, h6]

theorem int_round_trip (bb ib : Nat) (a : Int) (ha : 0 ≤ a) :
    Int.lor (Int.lor (ctag bb ib a <<< ((bb + ib : Nat) : Int)) (index bb ib a <<< (bb : Int)))
      (blockoff bb a) = a := by
  obtain ⟨n, rfl⟩ := Int.eq_ofNat_of_zero_le ha
  have h1 : ctag bb ib (n : Int) = ((n >>> (bb + ib) : Nat) : Int) := rfl
  have h2 : index bb ib (n : Int) = (((n >>> bb) &&& ((1 <<< ib) - 1) : Nat) : Int) := rfl
  have h3 : blockoff bb (n : Int) = ((n &&& ((1 <<< bb) - 1) : Nat) : Int) := rfl
  rw [h1, h2, h3, Int.shiftLeft_coe_nat, Int.shiftLeft_coe_nat]
  show (((_ ||| _) ||| _ : Nat) : Int) = _
  rw [nat_round_trip]

/-! ## Flags, write-back and frame of one trace record -/

theorem touchSet_hit_scan (g : Config) (mem : Mem) (ways : List set_node) (op : Op)
    (hit : (touchSet g mem ways op).hit = true) :
    (scan (tagOf g op) ways).1 = some (touchSet g mem ways op).used := by
  have h1 := touchSet_hit g mem ways op
  have h2 := touchSet_used g mem ways op
  rw [hit] at h1
  cases h : (scan (tagOf g op) ways).1 with
  | none => rw [h] at h1; simp at h1
  | some p => rw [h] at h2; simp only at h2; rw [h2]

theorem touchSet_hit_mem (g : Config) (mem : Mem) (ways : List set_node) (op : Op)
    (hit : (touchSet g mem ways op).hit = true) :
    (touchSet g mem ways op).mem = mem ∧ (touchSet g mem ways op).wb = none := by
  have hs := touchSet_hit_scan g mem ways op hit
  generalize (touchSet g mem ways op).used = u at hs
  unfold tagOf at hs
  unfold touchSet
  cases op <;> simp only [Op.currAddress] at hs ⊢ <;> rw [hs] <;> exact ⟨rfl, rfl⟩

theorem touchSet_miss_mem (g : Config) (mem : Mem) (ways : List set_node) (op : Op)
    (miss : (touchSet g mem ways op).hit = false) :
    (touchSet g mem ways op).mem =
        (if (ways.getD (touchSet g mem ways op).used noWay).dirty = 1 then
          write_to_memory mem (ways.getD (touchSet g mem ways op).used noWay).data
            (baseOf g op) g.blockSize
        else mem) ∧
      (touchSet g mem ways op).wb =
        (if (ways.getD (touchSet g mem ways op).used noWay).dirty = 1 then
          some (baseOf g op, (ways.getD (touchSet g mem ways op).used noWay).data)
        else none) := by
  have hs := touchSet_miss_scan g mem ways op miss
  unfold tagOf at hs
  unfold touchSet baseOf
  cases op <;> simp only [Op.currAddress] at hs ⊢ <;> rw [hs] <;> exact ⟨rfl, rfl⟩

theorem touchSet_load_hit_way (g : Config) (mem : Mem) (ways : List set_node) (a : Int) (n : Nat)
    (hne : ways ≠ []) (hit : (touchSet g mem ways (.load a n)).hit = true) :
    (touchSet g mem ways (.load a n)).ways.getD (touchSet g mem ways (.load a n)).used noWay =
      { ways.getD (touchSet g mem ways (.load a n)).used noWay with
        lru := 0, tag := tagOf g (.load a n) } := by
  have hlt := touchSet_used_lt g mem ways (.load a n) hne
  have hs := touchSet_hit_scan g mem ways (.load a n) hit
  generalize (touchSet g mem ways (.load a n)).used = u at hs hlt
  unfold tagOf at hs
  unfold touchSet tagOf
  simp only [Op.currAddress] at hs ⊢
  rw [hs]
  exact getD_modifyAt_self _ _ _ hlt

theorem touchSet_used_dirty (g : Config) (mem : Mem) (ways : List set_node) (op : Op)
    (hne : ways ≠ []) :
    ((touchSet g mem ways op).ways.getD (touchSet g mem ways op).used noWay).dirty = 0 ∨
    ((touchSet g mem ways op).ways.getD (touchSet g mem ways op).used noWay).dirty = 1 ∨
    ((touchSet g mem ways op).ways.getD (touchSet g mem ways op).used noWay).dirty =
      (ways.getD (touchSet g mem ways op).used noWay).dirty := by
  have hlt := touchSet_used_lt g mem ways op hne
  revert hlt
  unfold touchSet
  cases op <;> simp only [Op.currAddress] <;> split <;> intro hlt <;>
    rw [getD_modifyAt_self _ _ _ hlt] <;>
    first
      | exact Or.inl rfl
      | exact Or.inr (Or.inl rfl)
      | exact Or.inr (Or.inr rfl)

theorem accessSet_flagsOk (g : Config) (mem : Mem) (ways : List set_node) (op : Op)
    (hne : ways ≠ []) (h : FlagsOk ways) : FlagsOk (accessSet g mem ways op).ways := by
  intro q hq
  rw [accessSet_length] at hq
  by_cases hqu : q = (accessSet g mem ways op).used
  · subst hqu
    have hm := (accessSet_used_meta g mem ways op hne).1.2
    have hd := touchSet_used_dirty g mem ways op hne
    rw [← accessSet_used_way g mem ways op hne] at hd
    refine ⟨Or.inr hm, ?_⟩
    rcases hd with h0 | h1 | hsame
    · exact Or.inl h0
    · exact Or.inr ⟨h1, hm⟩
    · rcases (h _ hq).2 with h0 | h1
      · exact Or.inl (hsame.trans h0)
      · exact Or.inr ⟨hsame.trans h1.1, hm⟩
  · rw [accessSet_other g mem ways op q hqu hq]
    split <;> exact h q hq

theorem access_flagsOk (g : Config) (c : Cache) (mem : Mem) (op : Op) (hwf : WellFormed g c)
    (h : ∀ i, i < c.length → FlagsOk (c.getD i [])) :
    ∀ i, i < (access g c mem op).cache.length → FlagsOk ((access g c mem op).cache.getD i []) := by
  intro i hi
  rw [access_cache_length] at hi
  by_cases hij : i = setIndex g op.currAddress
  · subst hij
    rw [access_cache_self g c mem op hi]
    exact accessSet_flagsOk g mem _ op (wellFormed_set_ne_nil g c hwf op.currAddress) (h _ hi)
  · rw [access_cache_other g c mem op i hij]
    exact h i hi

theorem reachable_flagsOk (g : Config) (c : Cache) (mem : Mem) (hr : Reachable g c mem) :
    ∀ i, i < c.length → FlagsOk (c.getD i []) := by
  induction hr with
  | init c mem hi =>
    intro i hic q hq
    have hs := hi.2 _ (getD_mem_of_lt c [] i hic)
    have hw := hs.2 _ (getD_mem_of_lt _ noWay q hq)
    exact ⟨Or.inl hw.1, Or.inl hw.2.1⟩
  | step c mem op hr ih =>
    exact access_flagsOk g c mem op (reachable_inv g c mem hr).1 ih

theorem getD_noWay_of_le (ways : List set_node) (q : Nat) (h : ways.length ≤ q) :
    ways.getD q noWay = noWay := by
  rw [List.getD_eq_getElem?_getD, List.getElem?_eq_none h]
  rfl

theorem accessSet_load_hit_frame (g : Config) (mem : Mem) (ways : List set_node) (a : Int)
    (n : Nat) (hit : (accessSet g mem ways (.load a n)).hit = true) (q : Nat) :
    ((accessSet g mem ways (.load a n)).ways.getD q noWay).valid = (ways.getD q noWay).valid ∧
    ((accessSet g mem ways (.load a n)).ways.getD q noWay).dirty = (ways.getD q noWay).dirty ∧
    ((accessSet g mem ways (.load a n)).ways.getD q noWay).tag = (ways.getD q noWay).tag ∧
    ((accessSet g mem ways (.load a n)).ways.getD q noWay).data = (ways.getD q noWay).data := by
  have hu := accessSet_hit_used g mem ways (.load a n) hit
  have hne : ways ≠ [] := by
    intro h; rw [h] at hu; simp at hu
  by_cases hq : q < ways.length
  · by_cases hqu : q = (accessSet g mem ways (.load a n)).used
    · rw [hqu, accessSet_used_way g mem ways (.load a n) hne,
        touchSet_load_hit_way g mem ways a n hne hit]
      exact ⟨rfl, rfl, hu.2.1.1.symm, rfl⟩
    · rw [accessSet_other g mem ways (.load a n) q hqu hq]
      split <;> exact ⟨rfl, rfl, rfl, rfl⟩
  · have h1 : ways.length ≤ q := Nat.le_of_not_lt hq
    rw [getD_noWay_of_le _ q (by rw [accessSet_length]; exact h1), getD_noWay_of_le _ q h1]
    exact ⟨rfl, rfl, rfl, rfl⟩

theorem getD_nil_of_le (c : Cache) (i : Nat) (h : c.length ≤ i) : c.getD i [] = [] := by
  rw [List.getD_eq_getElem?_getD, List.getElem?_eq_none h]
  rfl

theorem index_lt_of_ne_nil (c : Cache) (i : Nat) (h : c.getD i [] ≠ []) : i < c.length := by
  by_contra hc
  exact h (getD_nil_of_le c i (Nat.le_of_not_lt hc))

theorem first_match_unique (t : Int) (ways ways2 : List set_node) (p p2 : Nat)
    (hsame : ∀ q, Matches t (ways2.getD q noWay) ↔ Matches t (ways.getD q noWay))
    (hp : Matches t (ways.getD p noWay)) (hpmin : ∀ q, q < p → ¬ Matches t (ways.getD q noWay))
    (hp2 : Matches t (ways2.getD p2 noWay))
    (hp2min : ∀ q, q < p2 → ¬ Matches t (ways2.getD q noWay)) : p2 = p := by
  rcases Nat.lt_trichotomy p2 p with h | h | h
  · exact absurd ((hsame p2).mp hp2) (hpmin p2 h)
  · exact h
  · exact absurd ((hsame p).mpr hp) (hp2min p h)

theorem load_hit_twice (g : Config) (mem mem2 : Mem) (ways : List set_node) (a : Int) (n : Nat)
    (hit : (accessSet g mem ways (.load a n)).hit = true) :
    (accessSet g mem2 (accessSet g mem ways (.load a n)).ways (.load a n)).hit = true ∧
    (accessSet g mem2 (accessSet g mem ways (.load a n)).ways (.load a n)).out =
      (accessSet g mem ways (.load a n)).out := by
  have hu := accessSet_hit_used g mem ways (.load a n) hit
  have hframe := accessSet_load_hit_frame g mem ways a n hit
  have hlen := accessSet_length g mem ways (.load a n)
  have hsame : ∀ q, Matches (tagOf g (.load a n))
      ((accessSet g mem ways (.load a n)).ways.getD q noWay) ↔
      Matches (tagOf g (.load a n)) (ways.getD q noWay) := by
    intro q
    unfold Matches
    rw [(hframe q).1, (hframe q).2.2.1]
  have hit2 : (accessSet g mem2 (accessSet g mem ways (.load a n)).ways (.load a n)).hit = true :=
    (accessSet_hit_iff g mem2 _ (.load a n)).mpr
      ⟨_, by rw [hlen]; exact hu.1, (hsame _).mpr hu.2.1⟩
  refine ⟨hit2, ?_⟩
  have hu2 := accessSet_hit_used g mem2 _ (.load a n) hit2
  have heq := first_match_unique _ ways _ _ _ hsame hu.2.1 hu.2.2 hu2.2.1 hu2.2.2
  have ho1 : (accessSet g mem ways (.load a n)).out = _ := touchSet_load_hit_out g mem ways a n hit
  have ho2 : (accessSet g mem2 (accessSet g mem ways (.load a n)).ways (.load a n)).out = _ :=
    touchSet_load_hit_out g mem2 _ a n hit2
  rw [ho2, ho1]
  have heq2 : (touchSet g mem2 (accessSet g mem ways (.load a n)).ways (.load a n)).used =
      (touchSet g mem ways (.load a n)).used := heq
  rw [heq2, (hframe _).2.2.2]

/-! ## Traces and the whole program -/

theorem startup_initial (g : Config) (heap : Heap) : IsInitial g (startup g heap) := by
  refine ⟨by simp [startup], fun s hs => ?_⟩
  simp only [startup, List.mem_map, List.mem_range] at hs
  obtain ⟨i, _, rfl⟩ := hs
  refine ⟨by simp, fun w hw => ?_⟩
  simp only [List.mem_map, List.mem_range] at hw
  obtain ⟨j, _, rfl⟩ := hw
  exact ⟨rfl, rfl, rfl, by simp⟩

theorem length_printed (g : Config) (trace : List Op) :
    ∀ (c : Cache) (mem : Mem), (printed g c mem trace).length = trace.length := by
  induction trace with
  | nil => intro c mem; rfl
  | cons op rest ih => intro c mem; simp [printed, ih]

theorem access_miss_of_invalid (g : Config) (c : Cache) (mem : Mem) (op : Op)
    (h : ∀ q, q < (c.getD (setIndex g op.currAddress) []).length →
      ((c.getD (setIndex g op.currAddress) []).getD q noWay).valid = 0) :
    (access g c mem op).res.hit = false := by
  cases hhit : (access g c mem op).res.hit with
  | false => rfl
  | true =>
    exfalso
    obtain ⟨q, hq, hm⟩ := (accessSet_hit_iff g mem _ op).mp hhit
    have := h q hq
    rw [hm.2] at this
    exact absurd this (by decide)

theorem access_hit_of_resident (g : Config) (c : Cache) (mem : Mem) (op : Op)
    (h : Resident (tagOf g op) (c.getD (setIndex g op.currAddress) [])) :
    (access g c mem op).res.hit = true :=
  (accessSet_hit_iff g mem _ op).mpr h

theorem access_resident_after (g : Config) (c : Cache) (mem : Mem) (op : Op)
    (hwf : WellFormed g c) :
    Resident (tagOf g op) ((access g c mem op).cache.getD (setIndex g op.currAddress) []) := by
  have hne := wellFormed_set_ne_nil g c hwf op.currAddress
  have hi : setIndex g op.currAddress < c.length := by
    rw [hwf.1]; exact setIndex_lt g _
  rw [access_cache_self g c mem op hi]
  exact ⟨_, by rw [accessSet_length]; exact accessSet_used_lt g mem _ op hne,
    (accessSet_used_meta g mem _ op hne).1⟩

theorem initial_invalid (g : Config) (c : Cache) (h : IsInitial g c) (i q : Nat)
    (hi : i < c.length) (hq : q < (c.getD i []).length) :
    ((c.getD i []).getD q noWay).valid = 0 :=
  ((h.2 _ (getD_mem_of_lt c [] i hi)).2 _ (getD_mem_of_lt _ noWay q hq)).1

theorem not_pow_two_between (n k : Nat) (hlo : 2 ^ k < n) (hhi : n < 2 ^ (k + 1)) :
    ¬ ∃ j, n = 2 ^ j := by
  rintro ⟨j, rfl⟩
  have h1 : k < j := (Nat.pow_lt_pow_iff_right (by decide)).mp hlo
  have h2 : j < k + 1 := (Nat.pow_lt_pow_iff_right (by decide)).mp hhi
  omega

/-! ## Invalid ways are the oldest -/

theorem accessSet_ageSplit (g : Config) (mem : Mem) (ways : List set_node) (op : Op)
    (hshape : SetShape g ways) (h : AgeSplit ways) : AgeSplit (accessSet g mem ways op).ways := by
  have hne := shape_ne_nil g ways hshape
  have hult := accessSet_used_lt g mem ways op hne
  have hmeta := accessSet_used_meta g mem ways op hne
  obtain ⟨N, hN, hinv, hval⟩ := h
  have hother : ∀ q, q < ways.length → q ≠ (accessSet g mem ways op).used →
      ((accessSet g mem ways op).ways.getD q noWay).valid = (ways.getD q noWay).valid ∧
      ((accessSet g mem ways op).ways.getD q noWay).lru = (ways.getD q noWay).lru + 1 := by
    intro q hq hqu
    have hassoc : g.associativity > 1 := by
      have := hshape.1
      omega
    rw [accessSet_other g mem ways op q hqu hq, if_pos hassoc]
    exact ⟨rfl, rfl⟩
  refine ⟨N + 1, by omega, ?_, ?_⟩
  · intro q hq hv
    rw [accessSet_length] at hq
    by_cases hqu : q = (accessSet g mem ways op).used
    · rw [hqu, hmeta.1.2] at hv
      exact absurd hv (by decide)
    · have ho := hother q hq hqu
      rw [ho.1] at hv
      rw [ho.2, hinv q hq hv]
  · intro q hq hv
    rw [accessSet_length] at hq
    by_cases hqu : q = (accessSet g mem ways op).used
    · rw [hqu, hmeta.2]
      omega
    · have ho := hother q hq hqu
      rw [ho.1] at hv
      rw [ho.2]
      have := hval q hq hv
      omega

theorem reachable_ageSplit (g : Config) (c : Cache) (mem : Mem) (hr : Reachable g c mem) :
    ∀ i, i < c.length → AgeSplit (c.getD i []) := by
  induction hr with
  | init c mem hi =>
    intro i hic
    have hs := hi.2 _ (getD_mem_of_lt c [] i hic)
    refine ⟨0, le_refl 0, fun q hq _ => ?_, fun q hq hv => ?_⟩
    · exact (hs.2 _ (getD_mem_of_lt _ noWay q hq)).2.2.1
    · have := (hs.2 _ (getD_mem_of_lt _ noWay q hq)).1
      rw [this] at hv
      exact absurd hv (by decide)
  | step c mem op hr ih =>
    intro i hi
    have hwf := (reachable_inv g c mem hr).1
    rw [access_cache_length] at hi
    by_cases hij : i = setIndex g op.currAddress
    · subst hij
      rw [access_cache_self g c mem op hi]
      exact accessSet_ageSplit g mem _ op (hwf.2 _ hi) (ih _ hi)
    · rw [access_cache_other g c mem op i hij]
      exact ih i hi

/-! ## Blocks of a power-of-two size -/

theorem ldiff_mask (k n : Nat) : Nat.ldiff (2 ^ k - 1) n = 2 ^ k - (n % 2 ^ k + 1) := by
  apply Nat.eq_of_testBit_eq
  intro i
  rw [Nat.testBit_ldiff, Nat.testBit_two_pow_sub_one,
    Nat.testBit_two_pow_sub_succ (Nat.mod_lt _ (Nat.two_pow_pos k)), Nat.testBit_mod_two_pow]
  by_cases h : i < k <;> simp [h]

theorem land_lowMask_eq_emod (x : Int) (k : Nat) : Int.land x (lowMask k) = x % 2 ^ k := by
  rw [lowMask_eq]
  cases x with
  | ofNat n =>
    show ((n &&& (2 ^ k - 1) : Nat) : Int) = (n : Int) % 2 ^ k
    rw [Nat.and_pow_two_sub_one_eq_mod]
    push_cast
    rfl
  | negSucc n =>
    show ((Nat.ldiff (2 ^ k - 1) n : Nat) : Int) = Int.negSucc n % 2 ^ k
    have hpos : (0 : Int) < 2 ^ k := by positivity
    rw [Int.negSucc_emod n hpos, ldiff_mask]
    have h1 : n % 2 ^ k < 2 ^ k := Nat.mod_lt _ (Nat.two_pow_pos k)
    rw [Nat.cast_sub (by omega)]
    push_cast
    omega

theorem shiftRight_same_block (bb : Nat) (a x : Int) (hlo : a - blockoff bb a ≤ x)
    (hhi : x < a - blockoff bb a + 2 ^ bb) : x >>> bb = a >>> bb := by
  have hoff : blockoff bb a = a % 2 ^ bb := by
    unfold blockoff
    rw [shiftRight_zero_int, land_lowMask_eq_emod]
  rw [hoff] at hlo hhi
  rw [Int.shiftRight_eq_div_pow, Int.shiftRight_eq_div_pow]
  push_cast
  have hpos : (0 : Int) < 2 ^ bb := by positivity
  generalize (2 : Int) ^ bb = d at hlo hhi hpos
  have hbase : a - a % d = d * (a / d) := by
    have := Int.emod_add_ediv a d
    omega
  rw [hbase] at hlo hhi
  have hx : x = (x - d * (a / d)) + d * (a / d) := by omega
  rw [hx, Int.add_mul_ediv_left _ _ (ne_of_gt hpos),
    Int.ediv_eq_zero_of_lt (by omega) (by omega)]
  omega

theorem setIndex_same_block (g : Config) (a x : Int) (hpow : ∃ k, g.blockSize = 2 ^ k)
    (hlo : a - blockoff (bbits g) a ≤ x)
    (hhi : x < a - blockoff (bbits g) a + (g.blockSize : Int)) :
    setIndex g x = setIndex g a := by
  obtain ⟨k, hk⟩ := hpow
  have hbb : bbits g = k := by unfold bbits; rw [hk]; exact two_pow_shiftCount k
  have h2 : (g.blockSize : Int) = 2 ^ bbits g := by rw [hbb, hk]; push_cast; rfl
  rw [h2] at hhi
  unfold setIndex index
  rw [shiftRight_same_block (bbits g) a x hlo hhi]

/-! ## Memory behind invalid ways -/

theorem reachableFromZero_reachable (g : Config) (c : Cache) (mem : Mem)
    (h : ReachableFromZero g c mem) : Reachable g c mem := by
  induction h with
  | init c hi => exact Reachable.init c _ hi
  | step c mem op _ ih => exact Reachable.step c mem op ih

theorem reachableFromZero_main_loop (g : Config) (ops : List Op) :
    ∀ (c : Cache) (mem : Mem), ReachableFromZero g c mem →
      ReachableFromZero g (main_loop g c mem ops).1 (main_loop g c mem ops).2 := by
  induction ops with
  | nil => intro c mem h; exact h
  | cons op rest ih =>
    intro c mem h
    simp only [main_loop]
    exact ih _ _ (ReachableFromZero.step c mem op h)

theorem victim_invalid_of_invalid (ways : List set_node) (hflags : FlagsOk ways)
    (hsplit : AgeSplit ways) (u : Nat) (hu : u < ways.length)
    (hmax : ∀ q, q < ways.length → (ways.getD q noWay).lru ≤ (ways.getD u noWay).lru)
    (q0 : Nat) (hq0 : q0 < ways.length) (hv0 : (ways.getD q0 noWay).valid = 0) :
    (ways.getD u noWay).valid = 0 := by
  obtain ⟨N, _, hinv, hval⟩ := hsplit
  have h0 := hinv q0 hq0 hv0
  have h1 := hmax q0 hq0
  rcases (hflags u hu).1 with h | h
  · exact h
  · have := hval u hu h
    omega

theorem access_invalid_was_invalid (g : Config) (c : Cache) (mem : Mem) (op : Op)
    (hwf : WellFormed g c) (j q : Nat)
    (hq : q < ((access g c mem op).cache.getD j []).length)
    (hv : (((access g c mem op).cache.getD j []).getD q noWay).valid = 0) :
    q < (c.getD j []).length ∧ ((c.getD j []).getD q noWay).valid = 0 := by
  by_cases hj : j = setIndex g op.currAddress
  · subst hj
    have hi : setIndex g op.currAddress < c.length := by
      rw [hwf.1]; exact setIndex_lt g _
    have hne := wellFormed_set_ne_nil g c hwf op.currAddress
    rw [access_cache_self g c mem op hi] at hq hv
    rw [accessSet_length] at hq
    by_cases hqu : q = (accessSet g mem (c.getD (setIndex g op.currAddress) []) op).used
    · rw [hqu, (accessSet_used_meta g mem _ op hne).1.2] at hv
      exact absurd hv (by decide)
    · rw [(accessSet_other_tag_valid g mem _ op q hqu hq).2] at hv
      exact ⟨hq, hv⟩
  · rw [access_cache_other g c mem op j hj] at hq hv
    exact ⟨hq, hv⟩

theorem access_zeroBehindInvalid (g : Config) (c : Cache) (mem : Mem) (op : Op)
    (hpow : ∃ k, g.blockSize = 2 ^ k) (hr : Reachable g c mem)
    (h : ZeroBehindInvalid g c mem) :
    ZeroBehindInvalid g (access g c mem op).cache (access g c mem op).res.mem := by
  have hwf := (reachable_inv g c mem hr).1
  have hi : setIndex g op.currAddress < c.length := by
    rw [hwf.1]; exact setIndex_lt g _
  have hne := wellFormed_set_ne_nil g c hwf op.currAddress
  intro x hx
  obtain ⟨q, hq, hv⟩ := hx
  have hold := access_invalid_was_invalid g c mem op hwf _ q hq hv
  have hzero : mem x = 0 := h x ⟨q, hold.1, hold.2⟩
  cases hhit : (access g c mem op).res.hit with
  | true =>
    have hm : (access g c mem op).res.mem = mem := (touchSet_hit_mem g mem _ op hhit).1
    rw [hm]
    exact hzero
  | false =>
    have hm := (touchSet_miss_mem g mem (c.getD (setIndex g op.currAddress) []) op hhit).1
    have hmem : (access g c mem op).res.mem = _ := hm
    rw [hmem]
    split
    · rename_i hd
      -- a dirty victim is valid, so the indexed set had no invalid way
      have hmax : (touchSet g mem (c.getD (setIndex g op.currAddress) []) op).used <
            (c.getD (setIndex g op.currAddress) []).length ∧
          (∀ q, q < (c.getD (setIndex g op.currAddress) []).length →
            ((c.getD (setIndex g op.currAddress) []).getD q noWay).lru ≤
              ((c.getD (setIndex g op.currAddress) []).getD
                (touchSet g mem (c.getD (setIndex g op.currAddress) []) op).used noWay).lru) ∧
          _ :=
        accessSet_miss_used g mem (c.getD (setIndex g op.currAddress) []) op hne hhit
      have hflags := reachable_flagsOk g c mem hr _ hi
      have hsplit := reachable_ageSplit g c mem hr _ hi
      generalize (touchSet g mem (c.getD (setIndex g op.currAddress) []) op).used = u
        at hd hmax
      have hvalid : ((c.getD (setIndex g op.currAddress) []).getD u noWay).valid = 1 := by
        rcases (hflags _ hmax.1).2 with h0 | h1
        · rw [h0] at hd; exact absurd hd (by decide)
        · exact h1.2
      have hxi : setIndex g x ≠ setIndex g op.currAddress := by
        intro heq
        rw [heq] at hold
        have hv1 := victim_invalid_of_invalid _ hflags hsplit _ hmax.1 hmax.2.1 q hold.1 hold.2
        rw [hvalid] at hv1
        exact absurd hv1 (by decide)
      have hout : ¬ (baseOf g op ≤ x ∧ x < baseOf g op + (g.blockSize : Int)) := by
        rintro ⟨hlo, hhi⟩
        exact hxi (setIndex_same_block g op.currAddress x hpow hlo hhi)
      unfold write_to_memory
      rw [if_neg hout]
      exact hzero
    · exact hzero

theorem reachableFromZero_zeroBehindInvalid (g : Config) (c : Cache) (mem : Mem)
    (hpow : ∃ k, g.blockSize = 2 ^ k) (h : ReachableFromZero g c mem) :
    ZeroBehindInvalid g c mem := by
  induction h with
  | init c _ => intro x _; rfl
  | step c mem op hr ih =>
    exact access_zeroBehindInvalid g c mem op hpow (reachableFromZero_reachable g c mem hr) ih

theorem readBytes_of_zero (buf : List Nat) (off n : Nat) (h : ∀ j, buf.getD j 0 = 0) :
    readBytes buf off n = List.replicate n 0 := by
  apply ext_getD
  · simp [readBytes]
  · intro j hj
    simp only [readBytes, List.length_map, List.length_range] at hj
    have h1 : (readBytes buf off n).getD j 0 = buf.getD (off + j) 0 := by
      simp [readBytes, List.getD_eq_getElem?_getD, hj]
    rw [h1, h (off + j)]
    simp [List.getD_eq_getElem?_getD, List.getElem?_replicate, hj]

theorem getD_read_from_memory (mem : Mem) (addr : Int) (len j : Nat) :
    (read_from_memory mem addr len).getD j 0 = if j < len then mem (addr + (j : Int)) else 0 := by
  unfold read_from_memory
  by_cases hj : j < len
  · simp [List.getD_eq_getElem?_getD, hj]
  · rw [if_neg hj, List.getD_eq_getElem?_getD, List.getElem?_eq_none (by simp; omega)]
    rfl

/-! ## The whole program inside defined behaviour -/

theorem trace_loop_eq_printed (g : Config) (hb64 : g.blockSize ≤ 64) (ops : List Op) :
    ∀ (c : Cache) (mem : Mem), (∀ op ∈ ops, recordOk g op) →
      trace_loop g c mem ops = some (printed g c mem ops) := by
  induction ops with
  | nil => intro c mem _; rfl
  | cons op rest ih =>
      intro c mem h
      have hop : recordOk g op := h op (List.mem_cons_self _ _)
      have hrest : ∀ o ∈ rest, recordOk g o := fun o ho => h o (List.mem_cons_of_mem _ ho)
      have hno : ¬ ((access g c mem op).res.hit = false ∧ 64 < g.blockSize) := by
        intro hh; omega
      simp only [trace_loop, printed]
      rw [if_pos hop, if_neg hno, ih _ _ hrest]
      rfl

theorem trace_loop_miss_wide (g : Config) (c : Cache) (mem : Mem) (op : Op) (rest : List Op)
    (hwide : 64 < g.blockSize) (miss : (access g c mem op).res.hit = false) :
    trace_loop g c mem (op :: rest) = none := by
  simp only [trace_loop]
  by_cases hop : recordOk g op
  · rw [if_pos hop, if_pos ⟨miss, hwide⟩]
  · rw [if_neg hop]

theorem main_wide_block_undefined :
    main 5 { cacheSize := 1, associativity := 1, blockSize := 96 } 1024 zeroHeap zeroMem
      (some [.load 0x0 1]) = none := by
  decide

theorem two_pow_shiftCount_lt (m : Nat) (hm : 1 ≤ m) (hodd : ¬ ∃ k, m = 2 ^ k) :
    2 ^ shiftCount m < m := by
  have h := two_pow_shiftCount_le m hm
  rcases Nat.lt_or_ge (2 ^ shiftCount m) m with h1 | h1
  · exact h1
  · exact absurd ⟨shiftCount m, le_antisymm h1 h⟩ hodd

/-! ## The claims -/

/-- C1 (failing input): on the direct-mapped cache, after `store 0x0 1 aa` and `store 0x0 1 bb`
the way of set 0 is dirty with tag 0, so its block belongs at address 0. `load 0x400 1` then
misses in set 0, evicts that way and calls `write_to_memory` with the victim's old buffer, but at
0x400, the aligned base address of the load; the byte `bb` lands at 0x400 and address 0 keeps its
old content. -/
theorem writeback_goes_to_new_address :
    (access cfgDirect dirtyState.1 dirtyState.2 (.load 0x400 1)).res.hit = false ∧
    setIndex cfgDirect 0x400 = 0 ∧
    (access cfgDirect dirtyState.1 dirtyState.2 (.load 0x400 1)).res.used = 0 ∧
    ((dirtyState.1.getD 0 []).getD 0 noWay).dirty = 1 ∧
    ((dirtyState.1.getD 0 []).getD 0 noWay).tag = 0 ∧
    (access cfgDirect dirtyState.1 dirtyState.2 (.load 0x400 1)).res.wb =
      some (0x400, ((dirtyState.1.getD 0 []).getD 0 noWay).data) ∧
    baseOf cfgDirect (.load 0x400 1) = 0x400 ∧
    specWritebackAddress cfgDirect 0 0 = 0 ∧
    (access cfgDirect dirtyState.1 dirtyState.2 (.load 0x400 1)).res.mem 0x400 = 0xbb ∧
    (access cfgDirect dirtyState.1 dirtyState.2 (.load 0x400 1)).res.mem 0 = 0 := by
  decide

/-- C2 (failing input): `store 0x0 1 aa` on the initial direct-mapped cache misses and fills the
way of set 0 with `valid = 1`, the new tag and age 0, yet leaves it with `dirty = 0`. -/
theorem store_miss_leaves_way_clean :
    (access cfgDirect (zeroCache cfgDirect) zeroMem (.store 0 1 [0xaa])).res.hit = false ∧
    (((access cfgDirect (zeroCache cfgDirect) zeroMem (.store 0 1 [0xaa])).cache.getD 0 []).getD
      (access cfgDirect (zeroCache cfgDirect) zeroMem (.store 0 1 [0xaa])).res.used noWay).valid
      = 1 ∧
    (((access cfgDirect (zeroCache cfgDirect) zeroMem (.store 0 1 [0xaa])).cache.getD 0 []).getD
      (access cfgDirect (zeroCache cfgDirect) zeroMem (.store 0 1 [0xaa])).res.used noWay).tag
      = tagOf cfgDirect (.store 0 1 [0xaa]) ∧
    (((access cfgDirect (zeroCache cfgDirect) zeroMem (.store 0 1 [0xaa])).cache.getD 0 []).getD
      (access cfgDirect (zeroCache cfgDirect) zeroMem (.store 0 1 [0xaa])).res.used noWay).lru
      = 0 ∧
    (((access cfgDirect (zeroCache cfgDirect) zeroMem (.store 0 1 [0xaa])).cache.getD 0 []).getD
      (access cfgDirect (zeroCache cfgDirect) zeroMem (.store 0 1 [0xaa])).res.used noWay).dirty
      = 0 := by
  decide

/-- C3 (failing input): after `store 0x0 1 aa` the way of set 0 starts with `aa`. The record
`store 0x401 1 bb` then misses in set 0 (tag 1, offset 1). The block fetched from 0x400 is all
zero, so the claim expects the buffer `00 bb 00 ...`; the code leaves `aa bb 00 ...`: byte 0 of
the victim's previous content survives. -/
theorem store_miss_keeps_old_bytes :
    (access cfgDirect storedState.1 storedState.2 (.store 0x401 1 [0xbb])).res.hit = false ∧
    setIndex cfgDirect 0x401 = 0 ∧
    offOf cfgDirect (.store 0x401 1 [0xbb]) = 1 ∧
    (access cfgDirect storedState.1 storedState.2 (.store 0x401 1 [0xbb])).res.used = 0 ∧
    (((access cfgDirect storedState.1 storedState.2 (.store 0x401 1 [0xbb])).cache.getD 0
        []).getD 0 noWay).data ≠
      copyLoop (read_from_memory storedState.2 (baseOf cfgDirect (.store 0x401 1 [0xbb])) 64)
        (offOf cfgDirect (.store 0x401 1 [0xbb])) [0xbb] 1 ∧
    (((access cfgDirect storedState.1 storedState.2 (.store 0x401 1 [0xbb])).cache.getD 0
        []).getD 0 noWay).data.getD 0 0 = 0xaa ∧
    ((storedState.1.getD 0 []).getD 0 noWay).data.getD 0 0 = 0xaa ∧
    (read_from_memory storedState.2 (baseOf cfgDirect (.store 0x401 1 [0xbb])) 64).getD 0 0
      = 0 := by
  decide

/-- C4 (failing input): from the dirty state of C1, `load 0x400 1` misses and leaves the way
valid, clean and tagged 1, but byte 0 of its buffer is 0 while the backing memory after the
access holds `bb` at 0x400: the block was fetched before the write-back, and the write-back went
to the very address the block was fetched from. -/
theorem load_miss_buffer_differs_from_memory :
    (access cfgDirect dirtyState.1 dirtyState.2 (.load 0x400 1)).res.hit = false ∧
    (((access cfgDirect dirtyState.1 dirtyState.2 (.load 0x400 1)).cache.getD 0 []).getD 0
      noWay).valid = 1 ∧
    (((access cfgDirect dirtyState.1 dirtyState.2 (.load 0x400 1)).cache.getD 0 []).getD 0
      noWay).dirty = 0 ∧
    (((access cfgDirect dirtyState.1 dirtyState.2 (.load 0x400 1)).cache.getD 0 []).getD 0
      noWay).tag = tagOf cfgDirect (.load 0x400 1) ∧
    (((access cfgDirect dirtyState.1 dirtyState.2 (.load 0x400 1)).cache.getD 0 []).getD 0
      noWay).data.getD 0 0 = 0 ∧
    dirtyState.2 (baseOf cfgDirect (.load 0x400 1) + 0) = 0 ∧
    (access cfgDirect dirtyState.1 dirtyState.2 (.load 0x400 1)).res.mem
      (baseOf cfgDirect (.load 0x400 1) + 0) = 0xbb := by
  decide

/-- C5 (counterexample): on `1 1 48`, from zero memory, the trace `store 0x0 1 aa`,
`store 0x1f 8 0102030405060708`, `load 0x200 1` leaves `02` in backing memory at 0x220 (the
write-back of 48 bytes at 0x200 runs over the next 32-byte block). `load 0x220 1` then misses in
set 1, whose way is still invalid: the block fetched holds `02` at the offset of the load, but
the data reported is `00`. The four lines of the run are `miss`, `hit`, `miss 00`, `miss 00`;
every access of the run stays inside a 48-byte buffer and `d_buff[64]`. -/
theorem load_miss_invalid_victim_reports_zero :
    ReachableFromZero cfgOdd oddLeak.1 oddLeak.2 ∧
    (access cfgOdd oddLeak.1 oddLeak.2 (.load 0x220 1)).res.hit = false ∧
    setIndex cfgOdd 0x220 = 1 ∧
    ((oddLeak.1.getD 1 []).getD
      (access cfgOdd oddLeak.1 oddLeak.2 (.load 0x220 1)).res.used noWay).valid = 0 ∧
    (access cfgOdd oddLeak.1 oddLeak.2 (.load 0x220 1)).res.out = [0] ∧
    printed cfgOdd (zeroCache cfgOdd) init_memory
      [.store 0x0 1 [0xaa], .store 0x1f 8 [1, 2, 3, 4, 5, 6, 7, 8], .load 0x200 1,
        .load 0x220 1] = [(false, []), (true, []), (false, [0]), (false, [0])] ∧
    readBytes (read_from_memory oddLeak.2 (baseOf cfgOdd (.load 0x220 1)) cfgOdd.blockSize)
      (offOf cfgOdd (.load 0x220 1)) 1 = [2] ∧
    (access cfgOdd oddLeak.1 oddLeak.2 (.load 0x220 1)).res.out ≠
      readBytes (read_from_memory oddLeak.2 (baseOf cfgOdd (.load 0x220 1)) cfgOdd.blockSize)
        (offOf cfgOdd (.load 0x220 1)) 1 :=
  ⟨reachableFromZero_main_loop cfgOdd _ _ _
      (ReachableFromZero.init _ (zeroCache_initial cfgOdd)),
    by decide, by decide, by decide, by decide, by decide, by decide, by decide⟩

/-- C5 (amended): for every reachable cache state, every content of backing memory and every
load of `n` bytes that misses, the data reported is the `n` bytes at `[offset, offset + n)` of
the block just fetched from backing memory when the victim way was valid before the access
(`valid` not 0), and `n` zero bytes when the victim way was invalid (`valid = 0`). When the
block size is a power of two and the state is one a run reaches from zero memory, those zero
bytes are the bytes fetched, so the data reported is the fetched bytes whether the victim was
valid or not. -/
theorem load_miss_data (g : Config) (c : Cache) (mem : Mem) (a : Int) (n : Nat)
    (hr : Reachable g c mem) (miss : (access g c mem (.load a n)).res.hit = false) :
    (((c.getD (setIndex g a) []).getD (access g c mem (.load a n)).res.used noWay).valid ≠ 0 →
      (access g c mem (.load a n)).res.out =
        readBytes (read_from_memory mem (baseOf g (.load a n)) g.blockSize)
          (offOf g (.load a n)) n) ∧
    (((c.getD (setIndex g a) []).getD (access g c mem (.load a n)).res.used noWay).valid = 0 →
      (access g c mem (.load a n)).res.out = List.replicate n 0) ∧
    ((∃ k, g.blockSize = 2 ^ k) → ReachableFromZero g c mem →
      (access g c mem (.load a n)).res.out =
        readBytes (read_from_memory mem (baseOf g (.load a n)) g.blockSize)
          (offOf g (.load a n)) n) := by
  have hwf := (reachable_inv g c mem hr).1
  have hne := wellFormed_set_ne_nil g c hwf a
  have hi : setIndex g a < c.length := by rw [hwf.1]; exact setIndex_lt g a
  have hout := touchSet_load_miss_out g mem (c.getD (setIndex g a) []) a n miss
  have hlt := touchSet_used_lt g mem (c.getD (setIndex g a) []) (.load a n) hne
  have hlen := (hwf.2 _ hi).2 _ hlt
  have hvalid : ((c.getD (setIndex g a) []).getD
      (access g c mem (.load a n)).res.used noWay).valid ≠ 0 →
      (access g c mem (.load a n)).res.out =
        readBytes (read_from_memory mem (baseOf g (.load a n)) g.blockSize)
          (offOf g (.load a n)) n := by
    intro hv
    have hv2 : ((c.getD (setIndex g a) []).getD
        (touchSet g mem (c.getD (setIndex g a) []) (.load a n)).used noWay).valid ≠ 0 := hv
    show (touchSet g mem (c.getD (setIndex g a) []) (.load a n)).out = _
    rw [hout, if_neg hv2, copyLoop_full _ _ _ hlen (length_read_from_memory _ _ _)]
  have hinvalid : ((c.getD (setIndex g a) []).getD
      (access g c mem (.load a n)).res.used noWay).valid = 0 →
      (access g c mem (.load a n)).res.out = List.replicate n 0 := by
    intro hv
    have hv2 : ((c.getD (setIndex g a) []).getD
        (touchSet g mem (c.getD (setIndex g a) []) (.load a n)).used noWay).valid = 0 := hv
    show (touchSet g mem (c.getD (setIndex g a) []) (.load a n)).out = _
    rw [hout, if_pos hv2, readBytes_zeros]
  refine ⟨hvalid, hinvalid, ?_⟩
  intro hpow hz
  by_cases hv : ((c.getD (setIndex g a) []).getD
      (access g c mem (.load a n)).res.used noWay).valid = 0
  · rw [hinvalid hv]
    symm
    apply readBytes_of_zero
    intro j
    rw [getD_read_from_memory]
    split
    · rename_i hj
      apply reachableFromZero_zeroBehindInvalid g c mem hpow hz
      have hb : baseOf g (.load a n) = a - blockoff (bbits g) a := rfl
      have hj2 : (j : Int) < (g.blockSize : Int) := by exact_mod_cast hj
      have hsame : setIndex g (baseOf g (.load a n) + (j : Int)) = setIndex g a :=
        setIndex_same_block g a _ hpow (by rw [hb]; omega) (by rw [hb]; omega)
      rw [hsame]
      exact ⟨_, hlt, hv⟩
    · rfl
  · exact hvalid hv

set_option maxRecDepth 100000 in
/-- Witness for C5 (amended): over `markedMem`, after `load 0x0 1` the way of set 0 is valid and
`load 0x400 1` misses, evicts it and reports `7f`, the byte fetched; and in a run from zero
memory that wrote `bb` back at 0x400, `load 0x400 1` misses and reports `bb`, the byte
fetched. -/
theorem load_miss_data_witness :
    (access cfgDirect markedAfterLoad.1 markedAfterLoad.2 (.load 0x400 1)).res.hit = false ∧
    ((markedAfterLoad.1.getD 0 []).getD 0 noWay).valid = 1 ∧
    (access cfgDirect markedAfterLoad.1 markedAfterLoad.2 (.load 0x400 1)).res.out = [0x7f] ∧
    (access cfgDirect markedAfterLoad.1 markedAfterLoad.2 (.load 0x400 1)).res.out =
      readBytes (read_from_memory markedAfterLoad.2 (baseOf cfgDirect (.load 0x400 1))
        cfgDirect.blockSize) (offOf cfgDirect (.load 0x400 1)) 1 ∧
    (access cfgDirect writtenBack.1 writtenBack.2 (.load 0x400 1)).res.out = [0xbb] ∧
    (access cfgDirect writtenBack.1 writtenBack.2 (.load 0x400 1)).res.out =
      readBytes (read_from_memory writtenBack.2 (baseOf cfgDirect (.load 0x400 1))
        cfgDirect.blockSize) (offOf cfgDirect (.load 0x400 1)) 1 :=
  ⟨by decide, by decide, by decide,
    (load_miss_data cfgDirect markedAfterLoad.1 markedAfterLoad.2 0x400 1
      (reachable_zero cfgDirect markedMem [.load 0 1]) (by decide)).1 (by decide),
    by decide,
    (load_miss_data cfgDirect writtenBack.1 writtenBack.2 0x400 1
      (reachableFromZero_reachable _ _ _
        (reachableFromZero_main_loop cfgDirect _ _ _
          (ReachableFromZero.init _ (zeroCache_initial cfgDirect))))
      (by decide)).2.2 ⟨6, by decide⟩
      (reachableFromZero_main_loop cfgDirect _ _ _
        (ReachableFromZero.init _ (zeroCache_initial cfgDirect)))⟩

/-- C6: on a cache of the right shape, after a store of `n` bytes `v` at an address (with
`offset + n ≤ blockSize` and a payload of exactly `n` bytes), whether it hits or misses, an
immediately following load of `n` bytes at the same address reports hit and returns `v`. -/
theorem read_your_writes (g : Config) (c : Cache) (mem : Mem) (a : Int) (n : Nat) (v : List Nat)
    (hwf : WellFormed g c) (hoff : offOf g (.store a n v) + n ≤ g.blockSize)
    (hv : v.length = n) :
    (access g (access g c mem (.store a n v)).cache (access g c mem (.store a n v)).res.mem
        (.load a n)).res.hit = true ∧
    (access g (access g c mem (.store a n v)).cache (access g c mem (.store a n v)).res.mem
        (.load a n)).res.out = v := by
  have hne := wellFormed_set_ne_nil g c hwf a
  have hi : setIndex g a < c.length := by rw [hwf.1]; exact setIndex_lt g a
  have hshape := hwf.2 _ hi
  -- the set after the store
  have hset : (access g c mem (.store a n v)).cache.getD (setIndex g a) [] =
      (accessSet g mem (c.getD (setIndex g a) []) (.store a n v)).ways :=
    access_cache_self g c mem (.store a n v) hi
  generalize hw : c.getD (setIndex g a) [] = ways at hne hshape hset
  generalize hm1 : (access g c mem (.store a n v)).res.mem = mem1
  have hres : (access g (access g c mem (.store a n v)).cache mem1 (.load a n)).res =
      accessSet g mem1 (accessSet g mem ways (.store a n v)).ways (.load a n) := by
    show accessSet g mem1 ((access g c mem (.store a n v)).cache.getD (setIndex g a) [])
      (.load a n) = _
    rw [hset]
  rw [hres]
  -- facts about the store
  have hu := accessSet_used_meta g mem ways (.store a n v) hne
  have hult := accessSet_used_lt g mem ways (.store a n v) hne
  have hlen1 := accessSet_length g mem ways (.store a n v)
  generalize hways1 : (accessSet g mem ways (.store a n v)).ways = ways1 at hu hlen1
  generalize hused : (accessSet g mem ways (.store a n v)).used = u at hu hult
  have htag : tagOf g (.load a n) = tagOf g (.store a n v) := rfl
  -- the load hits
  have hhit : (accessSet g mem1 ways1 (.load a n)).hit = true :=
    (accessSet_hit_iff g mem1 ways1 (.load a n)).mpr ⟨u, by rw [hlen1]; exact hult, hu.1⟩
  refine ⟨hhit, ?_⟩
  have h2 := accessSet_hit_used g mem1 ways1 (.load a n) hhit
  -- and touches the way the store touched
  have hsame : (accessSet g mem1 ways1 (.load a n)).used = u := by
    by_contra hneq
    have hle : (accessSet g mem1 ways1 (.load a n)).used < u := by
      rcases Nat.lt_or_ge (accessSet g mem1 ways1 (.load a n)).used u with h | h
      · exact h
      · rcases Nat.lt_or_eq_of_le h with h' | h'
        · exact absurd hu.1 (h2.2.2 u h')
        · exact absurd h'.symm hneq
    have hlt2 : (accessSet g mem1 ways1 (.load a n)).used < ways.length := by
      rw [← hlen1]; exact h2.1
    have hother := accessSet_other_tag_valid g mem ways (.store a n v)
      (accessSet g mem1 ways1 (.load a n)).used (by rw [hused]; exact hneq) hlt2
    rw [hways1] at hother
    have hold : Matches (tagOf g (.store a n v))
        (ways.getD (accessSet g mem1 ways1 (.load a n)).used noWay) :=
      ⟨by rw [← hother.1]; exact h2.2.1.1, by rw [← hother.2]; exact h2.2.1.2⟩
    have hhit0 : (accessSet g mem ways (.store a n v)).hit = true :=
      (accessSet_hit_iff g mem ways (.store a n v)).mpr ⟨_, hlt2, hold⟩
    have h0 := accessSet_hit_used g mem ways (.store a n v) hhit0
    rw [hused] at h0
    exact h0.2.2 _ hle hold
  -- the bytes read are the bytes written
  have hout : (accessSet g mem1 ways1 (.load a n)).out =
      readBytes (ways1.getD (accessSet g mem1 ways1 (.load a n)).used noWay).data
        (offOf g (.load a n)) n :=
    touchSet_load_hit_out g mem1 ways1 a n hhit
  rw [hout, hsame]
  have hdata : (ways1.getD u noWay).data =
      copyLoop (ways.getD u noWay).data (offOf g (.store a n v)) v n := by
    rw [← hways1, ← hused, accessSet_used_way g mem ways (.store a n v) hne]
    exact touchSet_store_data g mem ways a n v hne
  rw [hdata]
  have hoff2 : offOf g (.load a n) = offOf g (.store a n v) := rfl
  rw [hoff2]
  exact readBytes_copyLoop _ _ _ _ (by rw [hshape.2 u hult]; exact hoff) hv

/-- Witness for C6: on the initial direct-mapped cache, `store 0x10 2 dead` (a miss) followed by
`load 0x10 2` reports hit and returns `de ad`. -/
theorem read_your_writes_witness :
    (access cfgDirect (access cfgDirect (zeroCache cfgDirect) zeroMem
          (.store 0x10 2 [0xde, 0xad])).cache
        (access cfgDirect (zeroCache cfgDirect) zeroMem (.store 0x10 2 [0xde, 0xad])).res.mem
        (.load 0x10 2)).res.hit = true ∧
    (access cfgDirect (access cfgDirect (zeroCache cfgDirect) zeroMem
          (.store 0x10 2 [0xde, 0xad])).cache
        (access cfgDirect (zeroCache cfgDirect) zeroMem (.store 0x10 2 [0xde, 0xad])).res.mem
        (.load 0x10 2)).res.out = [0xde, 0xad] :=
  read_your_writes cfgDirect (zeroCache cfgDirect) zeroMem 0x10 2 [0xde, 0xad]
    (initial_inv _ _ (zeroCache_initial cfgDirect)).1 (by decide) (by decide)

/-- C7: from any reachable state, let a set of `k = associativity` ways be accessed by `k + 1`
records (loads or stores) with pairwise distinct tags `T1 .. T(k+1)`. Then the last access
misses, its victim is the way that holds `T1`, and afterwards `T2 .. T(k+1)` are resident in the
set and `T1` is not. Here `first` carries `T1`, `mid` carries `T2 .. Tk` and `last` carries
`T(k+1)`. -/
theorem lru_correctness (g : Config) (c : Cache) (mem : Mem) (hr : Reachable g c mem)
    (first : Op) (mid : List Op) (last : Op) (hk : mid.length + 1 = g.associativity)
    (hidx : ∀ op ∈ first :: mid ++ [last],
      setIndex g op.currAddress = setIndex g first.currAddress)
    (hdist : ((first :: mid ++ [last]).map (tagOf g)).Nodup) :
    (access g (main_loop g c mem (first :: mid)).1 (main_loop g c mem (first :: mid)).2
      last).res.hit = false ∧
    Matches (tagOf g first)
      (((main_loop g c mem (first :: mid)).1.getD (setIndex g first.currAddress) []).getD
        (access g (main_loop g c mem (first :: mid)).1 (main_loop g c mem (first :: mid)).2
          last).res.used noWay) ∧
    (∀ op ∈ mid ++ [last], Resident (tagOf g op)
      ((access g (main_loop g c mem (first :: mid)).1 (main_loop g c mem (first :: mid)).2
        last).cache.getD (setIndex g first.currAddress) [])) ∧
    ¬ Resident (tagOf g first)
      ((access g (main_loop g c mem (first :: mid)).1 (main_loop g c mem (first :: mid)).2
        last).cache.getD (setIndex g first.currAddress) []) := by
  have hinv := reachable_inv g c mem hr
  have hwf := hinv.1
  have hassoc : 1 ≤ g.associativity := by omega
  have hic : setIndex g first.currAddress < c.length := by
    rw [hwf.1]; exact setIndex_lt g _
  -- the tags in recency order, most recent first
  have hts : ((first :: mid).map (tagOf g)).reverse ++ [] =
      (mid.map (tagOf g)).reverse ++ [tagOf g first] := by simp
  have hnd0 : ((first :: mid ++ [last]).map (tagOf g)).Nodup := hdist
  have hsplit : (first :: mid ++ [last]).map (tagOf g) =
      (first :: mid).map (tagOf g) ++ [tagOf g last] := by simp
  rw [hsplit] at hnd0
  have hnd1 : ((first :: mid).map (tagOf g)).Nodup := (List.nodup_append.mp hnd0).1
  have hnd2 : (((first :: mid).map (tagOf g)).reverse ++ []).Nodup := by
    rw [List.append_nil]; exact List.nodup_reverse.mpr hnd1
  have hnew : tagOf g last ∉ ((first :: mid).map (tagOf g)).reverse ++ [] := by
    rw [List.append_nil, List.mem_reverse]
    intro hmem
    exact (List.nodup_append.mp hnd0).2.2 hmem (by simp)
  have hrun := recent_run g (setIndex g first.currAddress) hassoc (first :: mid) c mem []
    hwf (recent_init _ (hinv.2 _ hic).1) (fun op hop => hidx op (by
      simp only [List.cons_append, List.mem_cons, List.mem_append] at hop ⊢
      rcases hop with h | h
      · exact Or.inl h
      · exact Or.inr (Or.inl h))) hnd2 (by simp; omega)
  generalize main_loop g c mem (first :: mid) = s at hrun ⊢
  obtain ⟨hwf1, hR⟩ := hrun
  have hilast : setIndex g last.currAddress = setIndex g first.currAddress :=
    hidx last (by simp)
  have hic1 : setIndex g first.currAddress < s.1.length := by
    rw [hwf1.1]; exact setIndex_lt g _
  have hlen1 : (s.1.getD (setIndex g first.currAddress) []).length =
      (((first :: mid).map (tagOf g)).reverse ++ []).length := by
    rw [shape_length g _ (hwf1.2 _ hic1) hassoc]; simp; omega
  have hfin := recent_final g s.2 (s.1.getD (setIndex g first.currAddress) []) last
    (((first :: mid).map (tagOf g)).reverse ++ []) hlen1 (by simp) hR hnd2 hnew
  have hres : (access g s.1 s.2 last).res =
      accessSet g s.2 (s.1.getD (setIndex g first.currAddress) []) last := by
    show accessSet g s.2 (s.1.getD (setIndex g last.currAddress) []) last = _
    rw [hilast]
  have hcache : (access g s.1 s.2 last).cache.getD (setIndex g first.currAddress) [] =
      (accessSet g s.2 (s.1.getD (setIndex g first.currAddress) []) last).ways := by
    have := access_cache_self g s.1 s.2 last (by rw [hilast]; exact hic1)
    rwa [hilast] at this
  rw [hres, hcache]
  rw [hts] at hfin
  rw [getD_append_last] at hfin
  refine ⟨hfin.1, hfin.2.1, ?_, hfin.2.2.2.2⟩
  intro op hop
  rcases List.mem_append.mp hop with h | h
  · have hmem : tagOf g op ∈ (mid.map (tagOf g)).reverse :=
      List.mem_reverse.mpr (List.mem_map_of_mem _ h)
    obtain ⟨j, hj, hjt⟩ := getD_append_of_mem _ (tagOf g first) _ hmem
    rw [← hjt]
    exact hfin.2.2.1 j hj
  · rw [List.mem_singleton.mp h]
    exact hfin.2.2.2.1

/-- Witness for C7, the scenario of the specification with `k = 2`: on the initial two-way
cache, set 0 is touched by tags 0, 1 and 2 (`load 0x0`, `store 0x200`, `load 0x400`). The third
access misses and evicts way 0, which held tag 0; tags 1 and 2 end up resident, tag 0 not. -/
theorem lru_correctness_witness :
    (access cfgTwoWay twoWayAfterAB.1 twoWayAfterAB.2 (.load 0x400 1)).res.used = 0 ∧
    ((access cfgTwoWay twoWayAfterAB.1 twoWayAfterAB.2 (.load 0x400 1)).res.hit = false ∧
      Matches 0 ((twoWayAfterAB.1.getD 0 []).getD
        (access cfgTwoWay twoWayAfterAB.1 twoWayAfterAB.2 (.load 0x400 1)).res.used noWay) ∧
      (∀ op ∈ [Op.store 0x200 1 [0xbb]] ++ [Op.load 0x400 1], Resident (tagOf cfgTwoWay op)
        ((access cfgTwoWay twoWayAfterAB.1 twoWayAfterAB.2 (.load 0x400 1)).cache.getD 0 [])) ∧
      ¬ Resident 0
        ((access cfgTwoWay twoWayAfterAB.1 twoWayAfterAB.2 (.load 0x400 1)).cache.getD 0 [])) :=
  ⟨by decide,
    lru_correctness cfgTwoWay (zeroCache cfgTwoWay) zeroMem
      (Reachable.init _ _ (zeroCache_initial cfgTwoWay))
      (.load 0 1) [.store 0x200 1 [0xbb]] (.load 0x400 1) (by decide) (by decide) (by decide)⟩

/-- C8: in every cache state reachable from the initial cache by any sequence of loads and
stores, no set contains two distinct ways that are both valid and hold the same tag. -/
theorem at_most_one_mapping (g : Config) (c : Cache) (mem : Mem) (h : Reachable g c mem)
    (i p q : Nat) (hi : i < c.length) (hp : p < (c.getD i []).length)
    (hq : q < (c.getD i []).length) (hpq : p ≠ q) :
    ¬ (((c.getD i []).getD p noWay).valid = 1 ∧ ((c.getD i []).getD q noWay).valid = 1 ∧
        ((c.getD i []).getD p noWay).tag = ((c.getD i []).getD q noWay).tag) := by
  rintro ⟨hvp, hvq, ht⟩
  exact hpq (((reachable_inv g c mem h).2 i hi).2 p q hp hq hvp hvq ht)

/-- Witness for C8: after `load 0x0 1` and `store 0x200 1 bb` on the two-way cache both ways of
set 0 are valid, and they hold different tags. -/
theorem at_most_one_mapping_witness :
    ((twoWayAfterAB.1.getD 0 []).getD 0 noWay).valid = 1 ∧
    ((twoWayAfterAB.1.getD 0 []).getD 1 noWay).valid = 1 ∧
    ¬ (((twoWayAfterAB.1.getD 0 []).getD 0 noWay).valid = 1 ∧
        ((twoWayAfterAB.1.getD 0 []).getD 1 noWay).valid = 1 ∧
        ((twoWayAfterAB.1.getD 0 []).getD 0 noWay).tag =
          ((twoWayAfterAB.1.getD 0 []).getD 1 noWay).tag) :=
  ⟨by decide, by decide,
    at_most_one_mapping cfgTwoWay twoWayAfterAB.1 twoWayAfterAB.2
      (reachable_zero cfgTwoWay zeroMem [.load 0 1, .store 0x200 1 [0xbb]]) 0 0 1
      (by decide) (by decide) (by decide) (by decide)⟩

/-- C9: an access is reported as hit exactly when the set selected by the index of its address
contains a way with `valid = 1` and the tag of the address, and as miss otherwise; on a hit the
touched way is that matching way (the first one in set order). -/
theorem hit_detection (g : Config) (c : Cache) (mem : Mem) (op : Op) :
    ((access g c mem op).res.hit = true ↔
      ∃ q, q < (c.getD (setIndex g op.currAddress) []).length ∧
        ((c.getD (setIndex g op.currAddress) []).getD q noWay).valid = 1 ∧
        ((c.getD (setIndex g op.currAddress) []).getD q noWay).tag = tagOf g op) ∧
    ((access g c mem op).res.hit = false ↔
      ¬ ∃ q, q < (c.getD (setIndex g op.currAddress) []).length ∧
        ((c.getD (setIndex g op.currAddress) []).getD q noWay).valid = 1 ∧
        ((c.getD (setIndex g op.currAddress) []).getD q noWay).tag = tagOf g op) ∧
    ((access g c mem op).res.hit = true ↔
      (access g c mem op).res.used < (c.getD (setIndex g op.currAddress) []).length ∧
        ((c.getD (setIndex g op.currAddress) []).getD
          (access g c mem op).res.used noWay).valid = 1 ∧
        ((c.getD (setIndex g op.currAddress) []).getD
          (access g c mem op).res.used noWay).tag = tagOf g op ∧
        ∀ q, q < (access g c mem op).res.used →
          ¬ (((c.getD (setIndex g op.currAddress) []).getD q noWay).valid = 1 ∧
            ((c.getD (setIndex g op.currAddress) []).getD q noWay).tag = tagOf g op)) := by
  have hiff := accessSet_hit_iff g mem (c.getD (setIndex g op.currAddress) []) op
  have hex : (∃ q, q < (c.getD (setIndex g op.currAddress) []).length ∧
        Matches (tagOf g op) ((c.getD (setIndex g op.currAddress) []).getD q noWay)) ↔
      ∃ q, q < (c.getD (setIndex g op.currAddress) []).length ∧
        ((c.getD (setIndex g op.currAddress) []).getD q noWay).valid = 1 ∧
        ((c.getD (setIndex g op.currAddress) []).getD q noWay).tag = tagOf g op := by
    constructor
    · rintro ⟨q, hq, ht, hv⟩; exact ⟨q, hq, hv, ht⟩
    · rintro ⟨q, hq, hv, ht⟩; exact ⟨q, hq, ht, hv⟩
  have h1 : (access g c mem op).res.hit = true ↔ _ := hiff.trans hex
  refine ⟨h1, ?_, ?_⟩
  · rw [← h1]; simp
  · constructor
    · intro hit
      have hu := accessSet_hit_used g mem (c.getD (setIndex g op.currAddress) []) op hit
      exact ⟨hu.1, hu.2.1.2, hu.2.1.1, fun q hq hm => hu.2.2 q hq ⟨hm.2, hm.1⟩⟩
    · rintro ⟨hlt, hv, ht, _⟩
      exact h1.mpr ⟨_, hlt, hv, ht⟩

/-- C10: when an access misses (on a cache of the right shape), the victim is a way of the
indexed set whose age is the maximum over all ways of that set, every way before it in set order
is strictly younger, and it is the way the miss fills. -/
theorem victim_selection (g : Config) (c : Cache) (mem : Mem) (op : Op)
    (hwf : WellFormed g c) (miss : (access g c mem op).res.hit = false) :
    (access g c mem op).res.used < (c.getD (setIndex g op.currAddress) []).length ∧
    (∀ q, q < (c.getD (setIndex g op.currAddress) []).length →
      ((c.getD (setIndex g op.currAddress) []).getD q noWay).lru ≤
        ((c.getD (setIndex g op.currAddress) []).getD (access g c mem op).res.used noWay).lru) ∧
    (∀ q, q < (access g c mem op).res.used →
      ((c.getD (setIndex g op.currAddress) []).getD q noWay).lru <
        ((c.getD (setIndex g op.currAddress) []).getD (access g c mem op).res.used noWay).lru) ∧
    (((access g c mem op).cache.getD (setIndex g op.currAddress) []).getD
        (access g c mem op).res.used noWay).tag = tagOf g op ∧
    (((access g c mem op).cache.getD (setIndex g op.currAddress) []).getD
        (access g c mem op).res.used noWay).valid = 1 := by
  have hne := wellFormed_set_ne_nil g c hwf op.currAddress
  have hi : setIndex g op.currAddress < c.length := by
    rw [hwf.1]; exact setIndex_lt g op.currAddress
  have hu := accessSet_miss_used g mem (c.getD (setIndex g op.currAddress) []) op hne miss
  have hm := accessSet_used_meta g mem (c.getD (setIndex g op.currAddress) []) op hne
  refine ⟨hu.1, hu.2.1, hu.2.2, ?_, ?_⟩
  · rw [access_cache_self g c mem op hi]; exact hm.1.1
  · rw [access_cache_self g c mem op hi]; exact hm.1.2

/-- Witness for C10: after `load 0x0 1` on the two-way cache, way 0 of set 0 has age 0 and
way 1 has age 1; `load 0x200 1` then misses and its victim is way 1, the oldest. -/
theorem victim_selection_witness :
    (access cfgTwoWay twoWayAfterA.1 twoWayAfterA.2 (.load 0x200 1)).res.hit = false ∧
    (access cfgTwoWay twoWayAfterA.1 twoWayAfterA.2 (.load 0x200 1)).res.used = 1 ∧
    ((twoWayAfterA.1.getD 0 []).getD 0 noWay).lru <
      ((twoWayAfterA.1.getD 0 []).getD
        (access cfgTwoWay twoWayAfterA.1 twoWayAfterA.2 (.load 0x200 1)).res.used noWay).lru :=
  ⟨by decide, by decide,
    (victim_selection cfgTwoWay twoWayAfterA.1 twoWayAfterA.2 (.load 0x200 1)
      (reachable_inv _ _ _ (reachable_zero cfgTwoWay zeroMem [.load 0 1])).1
      (by decide)).2.2.1 0 (by decide)⟩

/-- C11: in every cache state reachable from the initial cache every dirty way is also valid;
hence a miss whose victim was invalid before the access makes no call of `write_to_memory` and
leaves backing memory as it was. -/
theorem no_writeback_from_invalid (g : Config) (c : Cache) (mem : Mem)
    (hr : Reachable g c mem) :
    (∀ i q, i < c.length → q < (c.getD i []).length →
      ((c.getD i []).getD q noWay).dirty ≠ 0 → ((c.getD i []).getD q noWay).valid = 1) ∧
    (∀ op, (access g c mem op).res.hit = false →
      ((c.getD (setIndex g op.currAddress) []).getD
        (access g c mem op).res.used noWay).valid = 0 →
      (access g c mem op).res.wb = none ∧ (access g c mem op).res.mem = mem) := by
  have hflags := reachable_flagsOk g c mem hr
  have hwf := (reachable_inv g c mem hr).1
  constructor
  · intro i q hi hq hd
    rcases (hflags i hi q hq).2 with h0 | h1
    · exact absurd h0 hd
    · exact h1.2
  · intro op miss hinv
    have hi : setIndex g op.currAddress < c.length := by
      rw [hwf.1]; exact setIndex_lt g _
    have hne := wellFormed_set_ne_nil g c hwf op.currAddress
    have hlt := touchSet_used_lt g mem (c.getD (setIndex g op.currAddress) []) op hne
    have hm := touchSet_miss_mem g mem (c.getD (setIndex g op.currAddress) []) op miss
    have hnd : ¬ ((c.getD (setIndex g op.currAddress) []).getD
        (touchSet g mem (c.getD (setIndex g op.currAddress) []) op).used noWay).dirty = 1 := by
      intro hd
      rcases (hflags _ hi _ hlt).2 with h0 | h1
      · rw [h0] at hd; exact absurd hd (by decide)
      · have hv : ((c.getD (setIndex g op.currAddress) []).getD
            (touchSet g mem (c.getD (setIndex g op.currAddress) []) op).used noWay).valid = 0 :=
          hinv
        rw [h1.2] at hv
        exact absurd hv (by decide)
    rw [if_neg hnd, if_neg hnd] at hm
    exact ⟨hm.2, hm.1⟩

/-- Witness for C11: in the direct-mapped cache after two stores to 0x0 the way of set 0 is
dirty and valid; `load 0x40 1` then misses in set 1, whose way is invalid, and writes nothing
back. -/
theorem no_writeback_from_invalid_witness :
    ((dirtyState.1.getD 0 []).getD 0 noWay).dirty = 1 ∧
    ((dirtyState.1.getD 0 []).getD 0 noWay).valid = 1 ∧
    (access cfgDirect dirtyState.1 dirtyState.2 (.load 0x40 1)).res.hit = false ∧
    (access cfgDirect dirtyState.1 dirtyState.2 (.load 0x40 1)).res.wb = none ∧
    (access cfgDirect dirtyState.1 dirtyState.2 (.load 0x40 1)).res.mem = dirtyState.2 :=
  ⟨by decide,
    (no_writeback_from_invalid cfgDirect dirtyState.1 dirtyState.2
      (reachable_zero cfgDirect zeroMem [.store 0 1 [0xaa], .store 0 1 [0xbb]])).1 0 0
      (by decide) (by decide) (by decide),
    by decide,
    ((no_writeback_from_invalid cfgDirect dirtyState.1 dirtyState.2
      (reachable_zero cfgDirect zeroMem [.store 0 1 [0xaa], .store 0 1 [0xbb]])).2
      (.load 0x40 1) (by decide) (by decide)).1,
    ((no_writeback_from_invalid cfgDirect dirtyState.1 dirtyState.2
      (reachable_zero cfgDirect zeroMem [.store 0 1 [0xaa], .store 0 1 [0xbb]])).2
      (.load 0x40 1) (by decide) (by decide)).2⟩

/-- C12: on a cache of the right shape, after any one access `op0` to an address (which leaves
its block resident), two consecutive loads of `n` bytes at that address both report hit and
return identical data. -/
theorem idempotent_hit (g : Config) (c : Cache) (mem : Mem) (hwf : WellFormed g c) (op0 : Op)
    (a : Int) (n : Nat) (h0 : op0.currAddress = a) :
    (access g (access g c mem op0).cache (access g c mem op0).res.mem (.load a n)).res.hit
      = true ∧
    (access g
      (access g (access g c mem op0).cache (access g c mem op0).res.mem (.load a n)).cache
      (access g (access g c mem op0).cache (access g c mem op0).res.mem (.load a n)).res.mem
      (.load a n)).res.hit = true ∧
    (access g
      (access g (access g c mem op0).cache (access g c mem op0).res.mem (.load a n)).cache
      (access g (access g c mem op0).cache (access g c mem op0).res.mem (.load a n)).res.mem
      (.load a n)).res.out =
    (access g (access g c mem op0).cache (access g c mem op0).res.mem (.load a n)).res.out := by
  subst h0
  have hne := wellFormed_set_ne_nil g c hwf op0.currAddress
  have hi : setIndex g op0.currAddress < c.length := by
    rw [hwf.1]; exact setIndex_lt g _
  have hset0 := access_cache_self g c mem op0 hi
  have hmeta := accessSet_used_meta g mem (c.getD (setIndex g op0.currAddress) []) op0 hne
  have hult := accessSet_used_lt g mem (c.getD (setIndex g op0.currAddress) []) op0 hne
  have hlen0 := accessSet_length g mem (c.getD (setIndex g op0.currAddress) []) op0
  generalize (access g c mem op0).res.mem = mem0
  have hi0 : setIndex g op0.currAddress < (access g c mem op0).cache.length := by
    rw [access_cache_length]; exact hi
  generalize (access g c mem op0).cache = c0 at hset0 hi0 ⊢
  generalize (accessSet g mem (c.getD (setIndex g op0.currAddress) []) op0).ways = ways0
    at hset0 hmeta hlen0
  have htag : tagOf g (.load op0.currAddress n) = tagOf g op0 := rfl
  -- the first load
  have hres1 : (access g c0 mem0 (.load op0.currAddress n)).res =
      accessSet g mem0 ways0 (.load op0.currAddress n) := by
    show accessSet g mem0 (c0.getD (setIndex g op0.currAddress) []) _ = _
    rw [hset0]
  have hit1 : (accessSet g mem0 ways0 (.load op0.currAddress n)).hit = true :=
    (accessSet_hit_iff g mem0 ways0 _).mpr ⟨_, by rw [hlen0]; exact hult, hmeta.1⟩
  have hset1 : (access g c0 mem0 (.load op0.currAddress n)).cache.getD
      (setIndex g op0.currAddress) [] =
      (accessSet g mem0 ways0 (.load op0.currAddress n)).ways := by
    have h := access_cache_self g c0 mem0 (.load op0.currAddress n) hi0
    have h2 : (access g c0 mem0 (.load op0.currAddress n)).cache.getD
        (setIndex g op0.currAddress) [] =
        (accessSet g mem0 (c0.getD (setIndex g op0.currAddress) [])
          (.load op0.currAddress n)).ways := h
    rw [h2, hset0]
  -- the second load
  have hres2 : (access g (access g c0 mem0 (.load op0.currAddress n)).cache
      (access g c0 mem0 (.load op0.currAddress n)).res.mem (.load op0.currAddress n)).res =
      accessSet g (access g c0 mem0 (.load op0.currAddress n)).res.mem
        (accessSet g mem0 ways0 (.load op0.currAddress n)).ways (.load op0.currAddress n) := by
    show accessSet g _ ((access g c0 mem0 (.load op0.currAddress n)).cache.getD
      (setIndex g op0.currAddress) []) _ = _
    rw [hset1]
  have htwice := load_hit_twice g mem0 (accessSet g mem0 ways0 (.load op0.currAddress n)).mem
    ways0 op0.currAddress n hit1
  rw [hres2, hres1]
  exact ⟨hit1, htwice.1, htwice.2⟩

/-- Witness for C12: on the initial direct-mapped cache over `markedMem`, `load 0x400 1` fills
the block; the next two loads of 0x400 both hit and both return `7f`. -/
theorem idempotent_hit_witness :
    markedReload.res.out = [0x7f] ∧
    (markedReload.res.hit = true ∧
      (access cfgDirect markedReload.cache markedReload.res.mem (.load 0x400 1)).res.hit
        = true ∧
      (access cfgDirect markedReload.cache markedReload.res.mem (.load 0x400 1)).res.out =
        markedReload.res.out) :=
  ⟨by decide,
    idempotent_hit cfgDirect (zeroCache cfgDirect) markedMem
      (initial_inv _ _ (zeroCache_initial cfgDirect)).1 (.load 0x400 1) 0x400 1 rfl⟩

/-- C13 (counterexample): the command line `1 32 64` is a valid configuration (all three sizes
positive, block size 64 and set count 1 powers of two), but the set count was raised from 0
to 1, so `nsets * associativity * blockSize` is 2048 while 1024 rounded down to a multiple of
2048 is 0. -/
theorem geometry_invariant_fails_when_clamped :
    0 < cfgWide.cacheSize ∧ 0 < cfgWide.associativity ∧ 0 < cfgWide.blockSize ∧
    cfgWide.blockSize = 2 ^ 6 ∧ nsets cfgWide = 2 ^ 0 ∧
    nsets cfgWide * cfgWide.associativity * cfgWide.blockSize = 2048 ∧
    (cfgWide.cacheSize * 1024) / (cfgWide.blockSize * cfgWide.associativity) *
      (cfgWide.blockSize * cfgWide.associativity) = 0 ∧
    nsets cfgWide * cfgWide.associativity * cfgWide.blockSize ≠
      (cfgWide.cacheSize * 1024) / (cfgWide.blockSize * cfgWide.associativity) *
        (cfgWide.blockSize * cfgWide.associativity) := by
  decide

/-- C13 (amended): for every configuration with positive associativity and block size whose
total size `total = cacheSize * 1024` fits a 32-bit `int` (hence for every valid one of that
size), `nsets` is at least 1 and is `max 1 (total / blockSize / associativity)`;
`nsets * associativity * blockSize` is `total` rounded down to a multiple of
`blockSize * associativity` whenever `total` is at least `blockSize * associativity`, and it is
`blockSize * associativity` (with `nsets = 1`) when `total` is smaller. -/
theorem geometry_invariant (g : Config) (ha : 0 < g.associativity) (hb : 0 < g.blockSize)
    (hfit : g.cacheSize * 1024 < 2 ^ 31) :
    1 ≤ nsets g ∧
    nsets g = max 1 ((g.cacheSize * 1024) / g.blockSize / g.associativity) ∧
    (g.blockSize * g.associativity ≤ g.cacheSize * 1024 →
      nsets g * g.associativity * g.blockSize =
        (g.cacheSize * 1024) / (g.blockSize * g.associativity) *
          (g.blockSize * g.associativity)) ∧
    (g.cacheSize * 1024 < g.blockSize * g.associativity →
      nsets g = 1 ∧ nsets g * g.associativity * g.blockSize =
        g.blockSize * g.associativity) := by
  have hn := nsets_of_fits g hfit
  have hdiv : (g.cacheSize * 1024) / g.blockSize / g.associativity =
      (g.cacheSize * 1024) / (g.blockSize * g.associativity) := Nat.div_div_eq_div_mul _ _ _
  have hpos : 0 < g.blockSize * g.associativity := Nat.mul_pos hb ha
  refine ⟨nsets_pos g, hn, ?_, ?_⟩
  · intro hle
    have h1 : 1 ≤ (g.cacheSize * 1024) / (g.blockSize * g.associativity) :=
      (Nat.one_le_div_iff hpos).mpr hle
    have h2 : nsets g = (g.cacheSize * 1024) / (g.blockSize * g.associativity) := by
      rw [hn, hdiv]
      omega
    rw [h2]
    ring
  · intro hlt
    have h1 : (g.cacheSize * 1024) / (g.blockSize * g.associativity) = 0 :=
      Nat.div_eq_of_lt hlt
    have h2 : nsets g = 1 := by
      rw [hn, hdiv, h1]
      rfl
    refine ⟨h2, ?_⟩
    rw [h2]
    ring

/-- Witness for C13 (amended): on `1 1 64` the 1024 bytes split into 16 sets of one 64-byte
way, and 16 * 1 * 64 is 1024 rounded down to a multiple of 64. -/
theorem geometry_invariant_witness :
    nsets cfgDirect = 16 ∧
    nsets cfgDirect * cfgDirect.associativity * cfgDirect.blockSize =
      (cfgDirect.cacheSize * 1024) / (cfgDirect.blockSize * cfgDirect.associativity) *
        (cfgDirect.blockSize * cfgDirect.associativity) :=
  ⟨by decide,
    (geometry_invariant cfgDirect (by decide) (by decide) (by decide)).2.2.1 (by decide)⟩

/-- C14: for every geometry and every non-negative address, the tag, index and offset computed
in the trace loop put the address back together:
`(tag << (bbits + ibits)) | (index << bbits) | offset` is the address. -/
theorem decomposition_round_trip (g : Config) (a : Int) (ha : 0 ≤ a) :
    Int.lor
      (Int.lor (ctag (bbits g) (ibits g) a <<< ((bbits g + ibits g : Nat) : Int))
        (index (bbits g) (ibits g) a <<< (bbits g : Int)))
      (blockoff (bbits g) a) = a :=
  int_round_trip (bbits g) (ibits g) a ha

/-- Witness for C14: on `1 1 64` the address 0x4d2 splits into tag 1, index 3, offset 18, and
these give 0x4d2 back. -/
theorem decomposition_round_trip_witness :
    ctag (bbits cfgDirect) (ibits cfgDirect) 0x4d2 = 1 ∧
    index (bbits cfgDirect) (ibits cfgDirect) 0x4d2 = 3 ∧
    blockoff (bbits cfgDirect) 0x4d2 = 18 ∧
    Int.lor
      (Int.lor (ctag (bbits cfgDirect) (ibits cfgDirect) 0x4d2 <<<
          ((bbits cfgDirect + ibits cfgDirect : Nat) : Int))
        (index (bbits cfgDirect) (ibits cfgDirect) 0x4d2 <<< (bbits cfgDirect : Int)))
      (blockoff (bbits cfgDirect) 0x4d2) = 0x4d2 :=
  ⟨by decide, by decide, by decide, decomposition_round_trip cfgDirect 0x4d2 (by decide)⟩

/-- C15: when the block size and the set count are exact powers of two, the shift loops give
their exact logarithms (`2 ^ bbits = blockSize`, `2 ^ ibits = nsets`), and for every address the
offset is `address & (blockSize - 1)`, the index is `(address >> bbits) & (nsets - 1)` and the tag
is `address >> (bbits + ibits)`, unmasked. -/
theorem decomposer_formulas (g : Config) (hb : ∃ k, g.blockSize = 2 ^ k)
    (hs : ∃ k, nsets g = 2 ^ k) (a : Int) :
    bbits g = Nat.log2 g.blockSize ∧ 2 ^ bbits g = g.blockSize ∧
    ibits g = Nat.log2 (nsets g) ∧ 2 ^ ibits g = nsets g ∧
    blockoff (bbits g) a = Int.land a (Int.ofNat (g.blockSize - 1)) ∧
    index (bbits g) (ibits g) a = Int.land (a >>> bbits g) (Int.ofNat (nsets g - 1)) ∧
    ctag (bbits g) (ibits g) a = a >>> (bbits g + ibits g) := by
  obtain ⟨k, hk⟩ := hb
  obtain ⟨j, hj⟩ := hs
  have hbb : bbits g = k := by unfold bbits; rw [hk]; exact two_pow_shiftCount k
  have hib : ibits g = j := by unfold ibits; rw [hj]; exact two_pow_shiftCount j
  refine ⟨shiftCount_eq_log2 _, by rw [hbb, hk], shiftCount_eq_log2 _, by rw [hib, hj], ?_, ?_,
    rfl⟩
  · unfold blockoff
    rw [shiftRight_zero_int, lowMask_eq, hbb, hk]
  · unfold index
    rw [lowMask_eq, hib, hj]

/-- Witness for C15: on `1 1 64` the block size is `2 ^ 6` and the set count `2 ^ 4`; the
address 0x4d2 has offset `0x4d2 & 63 = 18` and index `(0x4d2 >> 6) & 15 = 3`. -/
theorem decomposer_formulas_witness :
    bbits cfgDirect = 6 ∧ ibits cfgDirect = 4 ∧
    blockoff (bbits cfgDirect) 0x4d2 = Int.land 0x4d2 (Int.ofNat (cfgDirect.blockSize - 1)) ∧
    index (bbits cfgDirect) (ibits cfgDirect) 0x4d2 =
      Int.land ((0x4d2 : Int) >>> bbits cfgDirect) (Int.ofNat (nsets cfgDirect - 1)) :=
  ⟨by decide, by decide,
    (decomposer_formulas cfgDirect ⟨6, by decide⟩ ⟨4, by decide⟩ 0x4d2).2.2.2.2.1,
    (decomposer_formulas cfgDirect ⟨6, by decide⟩ ⟨4, by decide⟩ 0x4d2).2.2.2.2.2.1⟩

/-- C16: with the command line `1 1 64` there are 16 sets, address 0x0 maps to set 0 and 0x40
to set 1, and from any initial cache and memory the trace `load 0x0 4`, `load 0x40 4`,
`load 0x0 4` prints miss, miss, hit. -/
theorem direct_mapped_scenario (c : Cache) (mem : Mem) (hinit : IsInitial cfgDirect c) :
    nsets cfgDirect = 16 ∧ setIndex cfgDirect 0x0 = 0 ∧ setIndex cfgDirect 0x40 = 1 ∧
    (printed cfgDirect c mem [.load 0x0 4, .load 0x40 4, .load 0x0 4]).map Prod.fst =
      [false, false, true] := by
  refine ⟨by decide, by decide, by decide, ?_⟩
  simp only [printed, List.map]
  have hwf := (initial_inv _ _ hinit).1
  have hlen : c.length = 16 := hwf.1
  have hne : setIndex cfgDirect (Op.load 0x40 4).currAddress ≠
      setIndex cfgDirect (Op.load 0x0 4).currAddress := by decide
  -- the first load finds set 0 empty
  have h1 : (access cfgDirect c mem (.load 0x0 4)).res.hit = false :=
    access_miss_of_invalid _ _ _ _
      (fun q hq => initial_invalid _ c hinit _ q (by rw [hlen]; decide) hq)
  have hwf1 := access_wellFormed cfgDirect c mem (.load 0x0 4) hwf
  have hres1 := access_resident_after cfgDirect c mem (.load 0x0 4) hwf
  have hset1 : (access cfgDirect c mem (.load 0x0 4)).cache.getD
      (setIndex cfgDirect (Op.load 0x40 4).currAddress) [] =
      c.getD (setIndex cfgDirect (Op.load 0x40 4).currAddress) [] :=
    access_cache_other cfgDirect c mem (.load 0x0 4) _ hne
  generalize access cfgDirect c mem (.load 0x0 4) = r1 at h1 hwf1 hres1 hset1 ⊢
  -- the second load finds set 1 empty
  have h2 : (access cfgDirect r1.cache r1.res.mem (.load 0x40 4)).res.hit = false := by
    apply access_miss_of_invalid
    intro q hq
    rw [hset1] at hq ⊢
    exact initial_invalid _ c hinit _ q (by rw [hlen]; decide) hq
  have hset2 : (access cfgDirect r1.cache r1.res.mem (.load 0x40 4)).cache.getD
      (setIndex cfgDirect (Op.load 0x0 4).currAddress) [] =
      r1.cache.getD (setIndex cfgDirect (Op.load 0x0 4).currAddress) [] :=
    access_cache_other cfgDirect r1.cache r1.res.mem (.load 0x40 4) _ (Ne.symm hne)
  generalize access cfgDirect r1.cache r1.res.mem (.load 0x40 4) = r2 at h2 hset2 ⊢
  -- the third load finds the block of the first
  have h3 : (access cfgDirect r2.cache r2.res.mem (.load 0x0 4)).res.hit = true := by
    apply access_hit_of_resident
    rw [hset2]
    exact hres1
  rw [h1, h2, h3]

/-- Witness for C16: the scenario on the initial cache whose uninitialised tags and bytes are
zero, over a zero memory. -/
theorem direct_mapped_scenario_witness :
    nsets cfgDirect = 16 ∧ setIndex cfgDirect 0x0 = 0 ∧ setIndex cfgDirect 0x40 = 1 ∧
    (printed cfgDirect (zeroCache cfgDirect) zeroMem
      [.load 0x0 4, .load 0x40 4, .load 0x0 4]).map Prod.fst = [false, false, true] :=
  direct_mapped_scenario (zeroCache cfgDirect) zeroMem (zeroCache_initial cfgDirect)

/-- C17 (counterexample): the command line `1 1 48` has a block size (48) and a set count (21)
that are not powers of two, yet `main` does not fail: with a trace file that opens and holds the
record `load 0x0 1`, it simulates the record with the truncated bit counts 5 and 4, prints its
line and returns `EXIT_SUCCESS`. -/
theorem odd_geometry_is_not_rejected :
    (¬ ∃ k, cfgOdd.blockSize = 2 ^ k) ∧ (¬ ∃ k, nsets cfgOdd = 2 ^ k) ∧
    bbits cfgOdd = 5 ∧ ibits cfgOdd = 4 ∧
    main 5 cfgOdd 1024 zeroHeap zeroMem (some [.load 0x0 1]) =
      some (EXIT_SUCCESS, [(false, [0])]) ∧
    main 5 cfgOdd 1024 zeroHeap zeroMem (some [.load 0x0 1]) ≠ some (EXIT_FAILURE, []) :=
  ⟨not_pow_two_between 48 5 (by decide) (by decide),
    not_pow_two_between (nsets cfgOdd) 4 (by decide) (by decide),
    by decide, by decide, by decide, by decide⟩

/-- C17 (amended): a configuration whose block size or set count is not a power of two is not
rejected. For every such configuration with `1 ≤ blockSize ≤ 64`, `1 ≤ associativity`, a total
size `cacheSize * 1024` that fits an `int` and a set array that fits the stack, and every trace
that opens, has fewer than 2^31 records and whose records are all `recordOk`, `main` run with
its four arguments returns `EXIT_SUCCESS` after simulating every record of the trace, one
printed line each, with `bbits = floor(log2 blockSize)` and `ibits = floor(log2 nsets)`; these
are truncated: `2 ^ bbits < blockSize` or `2 ^ ibits < nsets`. -/
theorem no_geometry_check (g : Config) (stack : Nat) (heap : Heap) (mem : Mem) (ops : List Op)
    (hodd : (¬ ∃ k, g.blockSize = 2 ^ k) ∨ (¬ ∃ k, nsets g = 2 ^ k))
    (hb : 1 ≤ g.blockSize) (hb64 : g.blockSize ≤ 64) (ha : 1 ≤ g.associativity)
    (hfit : g.cacheSize * 1024 < 2 ^ 31) (hstack : nsets g ≤ stack)
    (hlen : ops.length < 2 ^ 31) (hrec : ∀ op ∈ ops, recordOk g op) :
    main 5 g stack heap mem (some ops) =
      some (EXIT_SUCCESS, printed g (startup g heap) mem ops) ∧
    (printed g (startup g heap) mem ops).length = ops.length ∧
    bbits g = Nat.log2 g.blockSize ∧ ibits g = Nat.log2 (nsets g) ∧
    (2 ^ bbits g < g.blockSize ∨ 2 ^ ibits g < nsets g) := by
  refine ⟨?_, length_printed g ops _ _, shiftCount_eq_log2 _, shiftCount_eq_log2 _, ?_⟩
  · have h1 : ¬ (2 ^ 31 ≤ g.cacheSize * 1024 ∨ g.blockSize = 0 ∨ g.associativity = 0) := by
      omega
    have h2 : ¬ stack < nsets g := by omega
    have h3 : ¬ (1 < g.associativity ∧ 2 ^ 31 ≤ ops.length) := by omega
    simp only [main]
    rw [if_neg (by decide), if_neg h1, if_neg h2, if_neg h3,
      trace_loop_eq_printed g hb64 ops _ _ hrec]
    rfl
  · rcases hodd with h | h
    · exact Or.inl (two_pow_shiftCount_lt g.blockSize hb h)
    · exact Or.inr (two_pow_shiftCount_lt (nsets g) (nsets_pos g) h)

/-- Witness for C17 (amended): on `1 1 48` a trace of two records is replayed in full and the
exit status is `EXIT_SUCCESS`. -/
theorem no_geometry_check_witness :
    main 5 cfgOdd 1024 zeroHeap zeroMem (some [.load 0x0 1, .store 0x30 1 [0xaa]]) =
      some (EXIT_SUCCESS,
        printed cfgOdd (startup cfgOdd zeroHeap) zeroMem [.load 0x0 1, .store 0x30 1 [0xaa]]) ∧
    (printed cfgOdd (startup cfgOdd zeroHeap) zeroMem
      [.load 0x0 1, .store 0x30 1 [0xaa]]).length = 2 ∧
    (2 ^ bbits cfgOdd < cfgOdd.blockSize ∨ 2 ^ ibits cfgOdd < nsets cfgOdd) :=
  have h := no_geometry_check cfgOdd 1024 zeroHeap zeroMem [.load 0x0 1, .store 0x30 1 [0xaa]]
    (Or.inl (not_pow_two_between 48 5 (by decide) (by decide)))
    (by decide) (by decide) (by decide) (by decide) (by decide) (by decide) (by decide)
  ⟨h.1, h.2.1, h.2.2.2.2⟩

/-- C18: a load that hits returns the `n` bytes at `[offset, offset + n)` of the buffer of the
matching way, makes no call of `write_to_memory`, leaves backing memory unchanged, and leaves
`valid`, `dirty`, `tag` and the buffer of every way of every set unchanged; the ages of ways
outside the indexed set are unchanged as well. -/
theorem load_hit_frame (g : Config) (c : Cache) (mem : Mem) (a : Int) (n : Nat)
    (hit : (access g c mem (.load a n)).res.hit = true) :
    (access g c mem (.load a n)).res.out =
      readBytes ((c.getD (setIndex g a) []).getD (access g c mem (.load a n)).res.used
        noWay).data (offOf g (.load a n)) n ∧
    Matches (tagOf g (.load a n))
      ((c.getD (setIndex g a) []).getD (access g c mem (.load a n)).res.used noWay) ∧
    (access g c mem (.load a n)).res.mem = mem ∧
    (access g c mem (.load a n)).res.wb = none ∧
    (access g c mem (.load a n)).cache.length = c.length ∧
    (∀ j q,
      (((access g c mem (.load a n)).cache.getD j []).getD q noWay).valid =
        ((c.getD j []).getD q noWay).valid ∧
      (((access g c mem (.load a n)).cache.getD j []).getD q noWay).dirty =
        ((c.getD j []).getD q noWay).dirty ∧
      (((access g c mem (.load a n)).cache.getD j []).getD q noWay).tag =
        ((c.getD j []).getD q noWay).tag ∧
      (((access g c mem (.load a n)).cache.getD j []).getD q noWay).data =
        ((c.getD j []).getD q noWay).data) ∧
    (∀ j q, j ≠ setIndex g a →
      (((access g c mem (.load a n)).cache.getD j []).getD q noWay).lru =
        ((c.getD j []).getD q noWay).lru) := by
  have hit2 : (accessSet g mem (c.getD (setIndex g a) []) (.load a n)).hit = true := hit
  have hu := accessSet_hit_used g mem (c.getD (setIndex g a) []) (.load a n) hit2
  have hne : c.getD (setIndex g a) [] ≠ [] := by
    intro h; rw [h] at hu; simp at hu
  have hi : setIndex g a < c.length := index_lt_of_ne_nil c _ hne
  have hmem := touchSet_hit_mem g mem (c.getD (setIndex g a) []) (.load a n) hit2
  have hself : (access g c mem (.load a n)).cache.getD (setIndex g a) [] =
      (accessSet g mem (c.getD (setIndex g a) []) (.load a n)).ways :=
    access_cache_self g c mem (.load a n) hi
  refine ⟨touchSet_load_hit_out g mem _ a n hit2, hu.2.1, hmem.1, hmem.2,
    access_cache_length g c mem _, ?_, ?_⟩
  · intro j q
    by_cases hj : j = setIndex g a
    · subst hj
      rw [hself]
      exact accessSet_load_hit_frame g mem _ a n hit2 q
    · rw [access_cache_other g c mem (.load a n) j hj]
      exact ⟨rfl, rfl, rfl, rfl⟩
  · intro j q hj
    rw [access_cache_other g c mem (.load a n) j hj]

/-- Witness for C18: in the two-way cache after `load 0x0 1` and `store 0x200 1 bb`, the record
`load 0x200 1` hits way 1 of set 0 and returns `bb`; memory is unchanged and way 1 stays
dirty. -/
theorem load_hit_frame_witness :
    (access cfgTwoWay twoWayAfterAB.1 twoWayAfterAB.2 (.load 0x200 1)).res.used = 1 ∧
    (access cfgTwoWay twoWayAfterAB.1 twoWayAfterAB.2 (.load 0x200 1)).res.out = [0xbb] ∧
    (access cfgTwoWay twoWayAfterAB.1 twoWayAfterAB.2 (.load 0x200 1)).res.mem
      = twoWayAfterAB.2 ∧
    (((access cfgTwoWay twoWayAfterAB.1 twoWayAfterAB.2 (.load 0x200 1)).cache.getD 0 []).getD 1
      noWay).dirty = ((twoWayAfterAB.1.getD 0 []).getD 1 noWay).dirty :=
  ⟨by decide, by decide,
    (load_hit_frame cfgTwoWay twoWayAfterAB.1 twoWayAfterAB.2 0x200 1 (by decide)).2.2.1,
    ((load_hit_frame cfgTwoWay twoWayAfterAB.1 twoWayAfterAB.2 0x200 1
      (by decide)).2.2.2.2.2.1 0 1).2.1⟩

/-- C19: on a cache of the right shape, after any access the touched way has age 0. With
`associativity > 1` every other way of the indexed set has its previous age plus 1; with
`associativity = 1` every way other than the touched one keeps its age, so no age is
incremented. The ages of ways in all other sets are unchanged in both cases. -/
theorem age_bookkeeping (g : Config) (c : Cache) (mem : Mem) (op : Op) (hwf : WellFormed g c) :
    (((access g c mem op).cache.getD (setIndex g op.currAddress) []).getD
      (access g c mem op).res.used noWay).lru = 0 ∧
    (1 < g.associativity → ∀ q, q < (c.getD (setIndex g op.currAddress) []).length →
      q ≠ (access g c mem op).res.used →
      (((access g c mem op).cache.getD (setIndex g op.currAddress) []).getD q noWay).lru =
        ((c.getD (setIndex g op.currAddress) []).getD q noWay).lru + 1) ∧
    (g.associativity = 1 → ∀ j q,
      (j ≠ setIndex g op.currAddress ∨ q ≠ (access g c mem op).res.used) →
      (((access g c mem op).cache.getD j []).getD q noWay).lru =
        ((c.getD j []).getD q noWay).lru) ∧
    (∀ j q, j ≠ setIndex g op.currAddress →
      (((access g c mem op).cache.getD j []).getD q noWay).lru =
        ((c.getD j []).getD q noWay).lru) := by
  have hne := wellFormed_set_ne_nil g c hwf op.currAddress
  have hi : setIndex g op.currAddress < c.length := by
    rw [hwf.1]; exact setIndex_lt g _
  have hself := access_cache_self g c mem op hi
  have hother : ∀ j q, j ≠ setIndex g op.currAddress →
      (((access g c mem op).cache.getD j []).getD q noWay).lru =
        ((c.getD j []).getD q noWay).lru := by
    intro j q hj
    rw [access_cache_other g c mem op j hj]
  refine ⟨?_, ?_, ?_, hother⟩
  · rw [hself]
    exact (accessSet_used_meta g mem _ op hne).2
  · intro hk q hq hqu
    rw [hself, accessSet_other g mem _ op q hqu hq, if_pos hk]
  · intro hk j q hjq
    by_cases hj : j = setIndex g op.currAddress
    · subst hj
      have hqu : q ≠ (accessSet g mem (c.getD (setIndex g op.currAddress) []) op).used := by
        rcases hjq with h | h
        · exact absurd rfl h
        · exact h
      rw [hself]
      by_cases hq : q < (c.getD (setIndex g op.currAddress) []).length
      · rw [accessSet_other g mem _ op q hqu hq, if_neg (by omega)]
      · have hle := Nat.le_of_not_lt hq
        rw [getD_noWay_of_le _ q (by rw [accessSet_length]; exact hle),
          getD_noWay_of_le _ q hle]
    · exact hother j q hj

/-- Witness for C19: in the two-way cache after `load 0x0 1` (ages 0 and 1 in set 0), the record
`load 0x200 1` touches way 1, which gets age 0, and way 0 goes from age 0 to age 1. -/
theorem age_bookkeeping_witness :
    (access cfgTwoWay twoWayAfterA.1 twoWayAfterA.2 (.load 0x200 1)).res.used = 1 ∧
    ((twoWayAfterA.1.getD 0 []).getD 0 noWay).lru = 0 ∧
    (((access cfgTwoWay twoWayAfterA.1 twoWayAfterA.2 (.load 0x200 1)).cache.getD
      (setIndex cfgTwoWay (Op.load 0x200 1).currAddress) []).getD
      (access cfgTwoWay twoWayAfterA.1 twoWayAfterA.2 (.load 0x200 1)).res.used noWay).lru
      = 0 ∧
    (((access cfgTwoWay twoWayAfterA.1 twoWayAfterA.2 (.load 0x200 1)).cache.getD
      (setIndex cfgTwoWay (Op.load 0x200 1).currAddress) []).getD 0 noWay).lru =
      ((twoWayAfterA.1.getD (setIndex cfgTwoWay (Op.load 0x200 1).currAddress) []).getD 0
        noWay).lru + 1 :=
  ⟨by decide, by decide,
    (age_bookkeeping cfgTwoWay twoWayAfterA.1 twoWayAfterA.2 (.load 0x200 1)
      (reachable_inv _ _ _ (reachable_zero cfgTwoWay zeroMem [.load 0 1])).1).1,
    (age_bookkeeping cfgTwoWay twoWayAfterA.1 twoWayAfterA.2 (.load 0x200 1)
      (reachable_inv _ _ _ (reachable_zero cfgTwoWay zeroMem [.load 0 1])).1).2.1
      (by decide) 0 (by decide) (by decide)⟩

/-- C20: for every configuration with a block size of at least 1 (a power of two or not; the
set count is always at least 1) and every address, negative ones included, the index lies in
`[0, nsets)` and the offset in `[0, blockSize)`, so `cache[index]` is an entry of the array of
`nsets` sets. -/
theorem lookup_in_range (g : Config) (hb : 1 ≤ g.blockSize) (a : Int) :
    1 ≤ nsets g ∧
    0 ≤ index (bbits g) (ibits g) a ∧ index (bbits g) (ibits g) a < (nsets g : Int) ∧
    0 ≤ blockoff (bbits g) a ∧ blockoff (bbits g) a < (g.blockSize : Int) ∧
    setIndex g a < nsets g := by
  refine ⟨nsets_pos g, land_lowMask_nonneg _ _, ?_, blockoff_nonneg _ _, ?_, setIndex_lt g a⟩
  · have h1 := land_lowMask_lt (a >>> bbits g) (ibits g)
    have h2 := two_pow_shiftCount_le (nsets g) (nsets_pos g)
    calc index (bbits g) (ibits g) a < (2 : Int) ^ ibits g := h1
      _ ≤ (nsets g : Int) := by unfold ibits; exact_mod_cast h2
  · have h1 := blockoff_lt (bbits g) a
    have h2 := two_pow_shiftCount_le g.blockSize hb
    calc blockoff (bbits g) a < (2 : Int) ^ bbits g := h1
      _ ≤ (g.blockSize : Int) := by unfold bbits; exact_mod_cast h2

/-- Witness for C20: on `1 1 48` (21 sets, neither size a power of two) the address 0x7ff has
index 15 and offset 31. -/
theorem lookup_in_range_witness :
    nsets cfgOdd = 21 ∧
    index (bbits cfgOdd) (ibits cfgOdd) 0x7ff = 15 ∧ blockoff (bbits cfgOdd) 0x7ff = 31 ∧
    index (bbits cfgOdd) (ibits cfgOdd) 0x7ff < (nsets cfgOdd : Int) ∧
    blockoff (bbits cfgOdd) 0x7ff < (cfgOdd.blockSize : Int) :=
  ⟨by decide, by decide, by decide,
    (lookup_in_range cfgOdd (by decide) 0x7ff).2.2.1,
    (lookup_in_range cfgOdd (by decide) 0x7ff).2.2.2.2.1⟩

/-- C21: in every reachable cache state, for every associativity of at least 1, when an access
misses and the indexed set still contains an invalid way, the victim is an invalid way and every
way before it in set order is valid, so it is the first invalid way; and when the victim of a
miss is valid, every way of the set is valid. -/
theorem invalid_ways_filled_first (g : Config) (c : Cache) (mem : Mem) (op : Op)
    (hr : Reachable g c mem) (_hk : 1 ≤ g.associativity)
    (miss : (access g c mem op).res.hit = false) :
    ((∃ q, q < (c.getD (setIndex g op.currAddress) []).length ∧
        ((c.getD (setIndex g op.currAddress) []).getD q noWay).valid = 0) →
      ((c.getD (setIndex g op.currAddress) []).getD (access g c mem op).res.used noWay).valid
        = 0 ∧
      ∀ q, q < (access g c mem op).res.used →
        ((c.getD (setIndex g op.currAddress) []).getD q noWay).valid = 1) ∧
    (((c.getD (setIndex g op.currAddress) []).getD (access g c mem op).res.used noWay).valid
        = 1 →
      ∀ q, q < (c.getD (setIndex g op.currAddress) []).length →
        ((c.getD (setIndex g op.currAddress) []).getD q noWay).valid = 1) := by
  have hwf := (reachable_inv g c mem hr).1
  have hi : setIndex g op.currAddress < c.length := by
    rw [hwf.1]; exact setIndex_lt g _
  have hne := wellFormed_set_ne_nil g c hwf op.currAddress
  have hflags := reachable_flagsOk g c mem hr _ hi
  obtain ⟨N, _, hinv, hval⟩ := reachable_ageSplit g c mem hr _ hi
  have hu := accessSet_miss_used g mem (c.getD (setIndex g op.currAddress) []) op hne miss
  have hused : (access g c mem op).res.used =
      (accessSet g mem (c.getD (setIndex g op.currAddress) []) op).used := rfl
  rw [hused]
  generalize (accessSet g mem (c.getD (setIndex g op.currAddress) []) op).used = u at hu
  generalize c.getD (setIndex g op.currAddress) [] = ways at hflags hinv hval hu
  have key : ∀ q0, q0 < ways.length → (ways.getD q0 noWay).valid = 0 →
      (ways.getD u noWay).valid = 0 ∧ ∀ q, q < u → (ways.getD q noWay).valid = 1 := by
    intro q0 hq0 hv0
    have h0 := hinv q0 hq0 hv0
    have hmax := hu.2.1 q0 hq0
    have huv : (ways.getD u noWay).valid = 0 := by
      rcases (hflags u hu.1).1 with h | h
      · exact h
      · have := hval u hu.1 h
        omega
    refine ⟨huv, fun q hq => ?_⟩
    rcases (hflags q (by omega)).1 with h | h
    · have h1 := hinv q (by omega) h
      have h2 := hinv u hu.1 huv
      have h3 := hu.2.2 q hq
      omega
    · exact h
  constructor
  · rintro ⟨q0, hq0, hv0⟩
    exact key q0 hq0 hv0
  · intro hv q hq
    rcases (hflags q hq).1 with h | h
    · have := (key q hq h).1
      rw [hv] at this
      exact absurd this (by decide)
    · exact h

/-- Witness for C21: in the two-way cache after `load 0x0 1`, way 0 of set 0 is valid and
way 1 is invalid; `load 0x200 1` misses and its victim is way 1, the invalid one. -/
theorem invalid_ways_filled_first_witness :
    ((twoWayAfterA.1.getD 0 []).getD 0 noWay).valid = 1 ∧
    (access cfgTwoWay twoWayAfterA.1 twoWayAfterA.2 (.load 0x200 1)).res.used = 1 ∧
    ((twoWayAfterA.1.getD (setIndex cfgTwoWay (Op.load 0x200 1).currAddress) []).getD
      (access cfgTwoWay twoWayAfterA.1 twoWayAfterA.2 (.load 0x200 1)).res.used noWay).valid
      = 0 :=
  ⟨by decide, by decide,
    ((invalid_ways_filled_first cfgTwoWay twoWayAfterA.1 twoWayAfterA.2 (.load 0x200 1)
      (reachable_zero cfgTwoWay zeroMem [.load 0 1]) (by decide) (by decide)).1
      ⟨1, by decide, by decide⟩).1⟩

/-- C22: for every cache state and every access, a hit leaves backing memory unchanged, a miss
whose victim is not dirty leaves it unchanged, and a miss whose victim is dirty makes one call
of `write_to_memory` for `blockSize` bytes; so a byte of memory differs after the access only if
the access missed, its victim was dirty, and the byte lies within the `blockSize` bytes of the
block written. -/
theorem memory_written_only_on_dirty_eviction (g : Config) (c : Cache) (mem : Mem) (op : Op) :
    ((access g c mem op).res.hit = true → (access g c mem op).res.mem = mem) ∧
    ((access g c mem op).res.hit = false →
      ((c.getD (setIndex g op.currAddress) []).getD (access g c mem op).res.used noWay).dirty
        ≠ 1 →
      (access g c mem op).res.mem = mem) ∧
    ((access g c mem op).res.hit = false →
      ((c.getD (setIndex g op.currAddress) []).getD (access g c mem op).res.used noWay).dirty
        = 1 →
      (access g c mem op).res.mem =
        write_to_memory mem
          ((c.getD (setIndex g op.currAddress) []).getD (access g c mem op).res.used noWay).data
          (baseOf g op) g.blockSize) ∧
    (∀ x, (access g c mem op).res.mem x ≠ mem x →
      (access g c mem op).res.hit = false ∧
      ((c.getD (setIndex g op.currAddress) []).getD (access g c mem op).res.used noWay).dirty
        = 1 ∧
      baseOf g op ≤ x ∧ x < baseOf g op + (g.blockSize : Int)) := by
  have hhit : (access g c mem op).res.hit = true → (access g c mem op).res.mem = mem :=
    fun h => (touchSet_hit_mem g mem _ op h).1
  have hmiss := fun h : (access g c mem op).res.hit = false =>
    (touchSet_miss_mem g mem (c.getD (setIndex g op.currAddress) []) op h).1
  have hclean : (access g c mem op).res.hit = false →
      ((c.getD (setIndex g op.currAddress) []).getD (access g c mem op).res.used noWay).dirty
        ≠ 1 → (access g c mem op).res.mem = mem := by
    intro h hd
    have hd2 : ¬ ((c.getD (setIndex g op.currAddress) []).getD
        (touchSet g mem (c.getD (setIndex g op.currAddress) []) op).used noWay).dirty = 1 := hd
    have := hmiss h
    rw [if_neg hd2] at this
    exact this
  have hdirty : (access g c mem op).res.hit = false →
      ((c.getD (setIndex g op.currAddress) []).getD (access g c mem op).res.used noWay).dirty
        = 1 →
      (access g c mem op).res.mem =
        write_to_memory mem
          ((c.getD (setIndex g op.currAddress) []).getD (access g c mem op).res.used noWay).data
          (baseOf g op) g.blockSize := by
    intro h hd
    have hd2 : ((c.getD (setIndex g op.currAddress) []).getD
        (touchSet g mem (c.getD (setIndex g op.currAddress) []) op).used noWay).dirty = 1 := hd
    have := hmiss h
    rw [if_pos hd2] at this
    exact this
  refine ⟨hhit, hclean, hdirty, ?_⟩
  intro x hx
  cases h : (access g c mem op).res.hit with
  | true => exact absurd (congrFun (hhit h) x) hx
  | false =>
    by_cases hd : ((c.getD (setIndex g op.currAddress) []).getD
        (access g c mem op).res.used noWay).dirty = 1
    · refine ⟨rfl, hd, ?_⟩
      have hm := hdirty h hd
      by_contra hrange
      apply hx
      rw [hm]
      unfold write_to_memory
      rw [if_neg hrange]
    · exact absurd (congrFun (hclean h hd) x) hx

/-- Witness for C22: from the dirty state, `load 0x400 1` misses with a dirty victim and memory
changes at 0x400, inside the 64 bytes written from 0x400; `load 0x0 1` hits and leaves memory
unchanged. -/
theorem memory_written_only_on_dirty_eviction_witness :
    (access cfgDirect dirtyState.1 dirtyState.2 (.load 0x400 1)).res.mem 0x400 = 0xbb ∧
    dirtyState.2 0x400 = 0 ∧
    ((access cfgDirect dirtyState.1 dirtyState.2 (.load 0x400 1)).res.hit = false ∧
      ((dirtyState.1.getD (setIndex cfgDirect (Op.load 0x400 1).currAddress) []).getD
        (access cfgDirect dirtyState.1 dirtyState.2 (.load 0x400 1)).res.used noWay).dirty
        = 1 ∧
      baseOf cfgDirect (.load 0x400 1) ≤ 0x400 ∧
      (0x400 : Int) < baseOf cfgDirect (.load 0x400 1) + (cfgDirect.blockSize : Int)) ∧
    (access cfgDirect dirtyState.1 dirtyState.2 (.load 0x0 1)).res.mem = dirtyState.2 :=
  ⟨by decide, by decide,
    (memory_written_only_on_dirty_eviction cfgDirect dirtyState.1 dirtyState.2
      (.load 0x400 1)).2.2.2 0x400 (by decide),
    (memory_written_only_on_dirty_eviction cfgDirect dirtyState.1 dirtyState.2
      (.load 0x0 1)).1 (by decide)⟩

end CacheSim
